import Mathlib

/-!
Verification of the connect-wwwhisper middleware (lib/connect-wwwhisper.js).

The middleware is shallowly embedded: strings are `List Char`, JS objects used
as header maps are association lists, the asynchronous request lifecycle is a
pure function from the backend's responses (an oracle) to the observable
outcome of one request (sub-requests issued, downstream application
invocations, and the client response).
-/

namespace ConnectWwwhisper

/-- Convert a string literal into the character-list representation used
throughout the development. -/
def s2l (s : String) : List Char := s.toList

/-- Boolean prefix test on character lists (JS `search(/^.../)` on a fixed
prefix, `String.prototype.startsWith`-like). -/
def isPref : List Char → List Char → Bool
  | [], _ => true
  | _ :: _, [] => false
  | c :: cs, d :: ds => c = d && isPref cs ds

/-- Boolean substring test (JS `indexOf(needle) !== -1`). -/
def containsSub (s : List Char) : List Char → Bool
  | [] => isPref s []
  | c :: cs => isPref s (c :: cs) || containsSub s cs

/-- Split at the first occurrence of a character: returns the part before it
and the part from the occurrence on (empty if the character is absent). -/
def splitFirst (c : Char) : List Char → List Char × List Char
  | [] => ([], [])
  | x :: xs =>
    if x = c then ([], x :: xs)
    else
      let p := splitFirst c xs
      (x :: p.1, p.2)

/-- ASCII lower-casing of one character (sufficient for HTTP header names). -/
def lowCh (c : Char) : Char :=
  if 'A' ≤ c ∧ c ≤ 'Z' then Char.ofNat (c.toNat + 32) else c

/-- ASCII lower-casing of a header name, as node.js applies to header names. -/
def lowName (n : List Char) : List Char := n.map lowCh

/-- Header pair: name and value. -/
abbrev HPair := List Char × List Char

/-- First-match lookup in an association list (exact key comparison, like a
JS object property access). -/
def lookupH (n : List Char) : List HPair → Option (List Char)
  | [] => none
  | (m, v) :: rest => if m = n then some v else lookupH n rest

/-- JS object property assignment `headers[h] = v`: replace the value of an
existing key or append a new entry (exact, case-sensitive keys). -/
def putH : List HPair → List Char → List Char → List HPair
  | [], n, v => [(n, v)]
  | (m, w) :: rest, n, v =>
    if m = n then (m, v) :: rest else (m, w) :: putH rest n v

/-- node.js `res.setHeader(n, v)`: case-insensitive replace-or-append; the
model stores the lower-cased name. -/
def setH : List HPair → List Char → List Char → List HPair
  | [], n, v => [(lowName n, v)]
  | (m, w) :: rest, n, v =>
    if m = lowName n then (m, v) :: rest else (m, w) :: setH rest n v

/-- Apply `setH` for each pair in order (node.js `writeHead(status, headers)`
through the `writeHead` helper of the middleware, which `setHeader`s each
entry). -/
def setAll (base : List HPair) (hs : List HPair) : List HPair :=
  hs.foldl (fun acc p => setH acc p.1 p.2) base

/-! ## Path normalizer

`normalizedUri` delegates to the external urijs library's `normalizePath()`,
which is not part of this repository. -/

/-- Split a path on `/` separators. The result is never empty. -/
def splitSl : List Char → List (List Char)
  | [] => [[]]
  | c :: cs =>
    if c = '/' then [] :: splitSl cs
    else
      match splitSl cs with
      | s :: rest => (c :: s) :: rest
      | [] => [[c]]

/-- Join segments with `/` separators. -/
def joinSegs : List (List Char) → List Char
  | [] => []
  | [s] => s
  | s :: rest => s ++ '/' :: joinSegs rest

/-- The non-empty segments of a path (runs of `/` collapse). -/
def nonEmptySegs (l : List Char) : List (List Char) :=
  (splitSl l).filter (· ≠ [])

/-- Dot-segment resolution: `.` is dropped, `..` pops the previous segment
and at the root pops nothing (the root is never escaped). The accumulator
holds the output segments in reverse. -/
def dotRes (acc : List (List Char)) : List (List Char) → List (List Char)
  | [] => acc.reverse
  | s :: rest =>
    if s = ['.'] then dotRes acc rest
    else if s = ['.', '.'] then dotRes acc.tail rest
    else dotRes (s :: acc) rest

/-- Whether the normalized path keeps a trailing slash: the raw path's final
slash-separated piece is empty (it ended in `/`, or was empty) or is a dot
segment (RFC 3986 `remove_dot_segments` leaves a trailing slash there). -/
def endsSlashOrDot (l : List Char) : Bool :=
  let g := (splitSl l).getLastD []
  g = [] || g = ['.'] || g = ['.', '.']

/-- Modelled from the spec: path normalization (spec 4.1) is performed by the
external urijs library's `normalizePath()`, which is not part of this
repository. Per the spec it resolves `.` and `..` segments as RFC 3986
`remove_dot_segments` does without escaping the root, collapses runs of
slashes, and collapses an empty path to `/`. The repository's tests pin this
behavior on eleven concrete paths, all matched by this definition. -/
def normChars (l : List Char) : List Char :=
  match dotRes [] (nonEmptySegs l) with
  | [] => ['/']
  | r => '/' :: joinSegs r ++ (if endsSlashOrDot l then ['/'] else [])

/-- String-level wrapper of `normChars`. -/
def normalizeP (s : String) : String := String.mk (normChars s.data)

/-! ## Cookie filter

`AUTH_COOKIE_REGEXP` is `new RegExp('wwwhisper' + '-[^;]*(?:;|$)', 'g')`;
`copyAuthCookies` runs `cookies.match(AUTH_COOKIE_REGEXP)` and joins the
matches with a single space. -/

/-- The cookie-name marker `wwwhisper-` of `AUTH_COOKIE_REGEXP`. -/
def marker : List Char := s2l "wwwhisper-"

/-- Consume characters up to and including the next `;` (the regex part
`[^;]*(?:;|$)`: the greedy run of non-semicolons and then the semicolon if
one follows). Returns the consumed part and the remainder. -/
def takeUntilSemi : List Char → List Char × List Char
  | [] => ([], [])
  | c :: cs =>
    if c = ';' then ([';'], cs)
    else
      let p := takeUntilSemi cs
      (c :: p.1, p.2)

theorem takeUntilSemi_snd_length (l : List Char) :
    (takeUntilSemi l).2.length ≤ l.length := by
  induction l with
  | nil => simp [takeUntilSemi]
  | cons c cs ih =>
    simp only [takeUntilSemi]
    split
    · simp
    · simpa using Nat.le_succ_of_le ih

theorem wwMatches_dec (c : Char) (cs : List Char) :
    (takeUntilSemi ((c :: cs).drop marker.length)).2.length < (c :: cs).length := by
  have h1 := takeUntilSemi_snd_length ((c :: cs).drop marker.length)
  have h2 : ((c :: cs).drop marker.length).length ≤ cs.length := by
    rw [List.length_drop]
    have hm : marker.length = 10 := rfl
    rw [hm]
    simp only [List.length_cons]
    omega
  simp only [List.length_cons]
  omega

/-- Fuelled scanner behind `wwMatches`; the fuel only forces structural
recursion (`wwMatches` passes the input length, which the scan never
exceeds). -/
def wwMatchesF : Nat → List Char → List (List Char)
  | 0, _ => []
  | _, [] => []
  | fuel + 1, c :: cs =>
    if isPref marker (c :: cs) = true then
      (marker ++ (takeUntilSemi ((c :: cs).drop marker.length)).1) ::
        wwMatchesF fuel (takeUntilSemi ((c :: cs).drop marker.length)).2
    else
      wwMatchesF fuel cs

/-- The list of matches of the global regex `wwwhisper-[^;]*(?:;|$)`:
scan left to right; at each position where the marker starts, the match
consumes the marker, the following non-semicolon run, and a trailing
semicolon if present; scanning resumes after the match. -/
def wwMatches (l : List Char) : List (List Char) := wwMatchesF l.length l

theorem wwMatchesF_fuel :
    ∀ fuel1 fuel2 l, l.length ≤ fuel1 → l.length ≤ fuel2 →
      wwMatchesF fuel1 l = wwMatchesF fuel2 l := by
  intro fuel1
  induction fuel1 with
  | zero =>
    intro fuel2 l h1 _
    have : l = [] := List.length_eq_zero.mp (Nat.le_zero.mp h1)
    subst this
    cases fuel2 <;> rfl
  | succ f1 ih =>
    intro fuel2 l h1 h2
    cases l with
    | nil => cases fuel2 <;> rfl
    | cons c cs =>
      cases fuel2 with
      | zero => simp at h2
      | succ f2 =>
        simp only [wwMatchesF]
        by_cases hp : isPref marker (c :: cs) = true
        · simp only [hp, if_true]
          have hlt := wwMatches_dec c cs
          simp only [List.length_cons] at h1 h2 hlt
          rw [ih f2 _ (by omega) (by omega)]
        · simp only [hp, if_false]
          simp only [List.length_cons] at h1 h2
          exact ih f2 cs (by omega) (by omega)

theorem wwMatches_cons_pos {c : Char} {cs : List Char}
    (h : isPref marker (c :: cs) = true) :
    wwMatches (c :: cs)
      = (marker ++ (takeUntilSemi ((c :: cs).drop marker.length)).1) ::
          wwMatches (takeUntilSemi ((c :: cs).drop marker.length)).2 := by
  show wwMatchesF (c :: cs).length (c :: cs) = _
  rw [show (c :: cs).length = cs.length + 1 from rfl]
  simp only [wwMatchesF, h, if_true]
  rw [wwMatchesF_fuel cs.length
    (takeUntilSemi ((c :: cs).drop marker.length)).2.length _
    (by have := wwMatches_dec c cs; simp only [List.length_cons] at this; omega)
    (le_refl _)]
  rfl

theorem wwMatches_cons_neg {c : Char} {cs : List Char}
    (h : isPref marker (c :: cs) = false) :
    wwMatches (c :: cs) = wwMatches cs := by
  show wwMatchesF (c :: cs).length (c :: cs) = _
  rw [show (c :: cs).length = cs.length + 1 from rfl]
  simp only [wwMatchesF, h]
  rfl

/-- JS `Array.prototype.join(' ')`. -/
def joinSp : List (List Char) → List Char
  | [] => []
  | [m] => m
  | m :: rest => m ++ ' ' :: joinSp rest

/-- `copyAuthCookies(req, headers)`: if the request has a `cookie` header and
the regex matches, set the sub-request's `Cookie` header to the matches
joined by spaces; otherwise leave the headers untouched. -/
def copyAuthCookiesF (reqHs : List HPair) (hs : List HPair) : List HPair :=
  match lookupH (s2l "cookie") reqHs with
  | none => hs
  | some c =>
    match wwMatches c with
    | [] => hs
    | ms => putH hs (s2l "Cookie") (joinSp ms)

/-- Split on `;` (used to state which cookie pairs a Cookie header holds). -/
def splitSemi : List Char → List (List Char)
  | [] => [[]]
  | c :: cs =>
    if c = ';' then [] :: splitSemi cs
    else
      match splitSemi cs with
      | s :: rest => (c :: s) :: rest
      | [] => [[c]]

/-- Drop leading spaces. -/
def trimSp (l : List Char) : List Char := l.dropWhile (· = ' ')

/-- The cookie pairs a Cookie header value holds: split on `;`, trim leading
spaces, drop empty pieces. -/
def parsePairs (l : List Char) : List (List Char) :=
  ((splitSemi l).map trimSp).filter (· ≠ [])

/-- `; `-join of cookie pairs, the canonical Cookie header layout. -/
def icSemi : List (List Char) → List Char
  | [] => []
  | [p] => p
  | p :: rest => p ++ ';' :: ' ' :: icSemi rest

/-- No occurrence of the `wwwhisper-` marker strictly inside `p` (an
occurrence at position 0, i.e. as the cookie-pair's name, is allowed). -/
def noInnerMarker (p : List Char) : Bool :=
  (List.range p.length).all (fun i => i = 0 || !(isPref marker (p.drop i)))

/-! ## Response injection -/

/-- `'identity'`, the `NO_ENCODING` constant. -/
def identityEnc : List Char := s2l "identity"

/-- The content-type fragment `shouldInject` searches for. -/
def htmlMark : List Char := s2l "text/html"

/-- `shouldInject(req, res)`: the content type is set and mentions
`text/html`, and the content encoding is unset or falsy (JS `||`, so the
empty string also counts) or literally `identity`. -/
def shouldInject (ct ce : Option (List Char)) : Bool :=
  match ct with
  | none => false
  | some t =>
    let enc := match ce with
      | none => identityEnc
      | some e => if e = [] then identityEnc else e
    decide (enc = identityEnc) && containsSub htmlMark t

/-- The closing body tag the injection regex looks for. -/
def tagL : List Char := s2l "</body>"

/-- The script reference the injection substitutes in. -/
def scriptL : List Char :=
  s2l "<script type=\"text/javascript\" src=\"/wwwhisper/auth/iframe.js\"></script>"

/-- Split a line around the LAST occurrence of `tagL` in it, if any
(the greedy `(.*)` capture of `/(.*)<\/body>/` reaches the last
occurrence on the line). Occurrences later in the list win. -/
def lastTagSplit : List Char → Option (List Char × List Char)
  | [] => none
  | c :: cs =>
    match lastTagSplit cs with
    | some (a, b) => some (c :: a, b)
    | none =>
      if isPref tagL (c :: cs) = true then some ([], (c :: cs).drop tagL.length)
      else none

theorem length_dropWhileNe_le (p : Char → Bool) (l : List Char) :
    (l.dropWhile p).length ≤ l.length := by
  induction l with
  | nil => simp
  | cons c cs ih =>
    by_cases hc : p c = true <;> simp [List.dropWhile, hc] <;> try omega

/-- Fuelled form of the body rewrite; the fuel only forces structural
recursion (`replaceBody` passes the input length, which bounds the number
of lines). -/
def replaceBodyF : Nat → List Char → List Char
  | 0, l => l
  | fuel + 1, l =>
    match lastTagSplit (l.takeWhile (· ≠ '\n')) with
    | some (a, b) =>
      a ++ scriptL ++ '\n' :: (tagL ++ (b ++ l.dropWhile (· ≠ '\n')))
    | none =>
      match l.dropWhile (· ≠ '\n') with
      | [] => l
      | _ :: rs => l.takeWhile (· ≠ '\n') ++ '\n' :: replaceBodyF fuel rs

/-- `inject`: `data.toString().replace(/(.*)<\/body>/, '$1<script ...></script>\n</body>')`.
Without the `s` flag `.` does not match a newline, so the leftmost match of
the regex starts at the beginning of the first line that contains `</body>`,
and the greedy `(.*)` extends the match to the LAST `</body>` of that line;
`$1` restores the capture, so the effect is to insert the script reference
and a newline immediately before that occurrence. With no match anywhere the
body is returned unchanged. -/
def replaceBody (l : List Char) : List Char := replaceBodyF l.length l

theorem replaceBodyF_fuel :
    ∀ fuel1 fuel2 l, l.length ≤ fuel1 → l.length ≤ fuel2 →
      replaceBodyF fuel1 l = replaceBodyF fuel2 l := by
  intro fuel1
  induction fuel1 with
  | zero =>
    intro fuel2 l h1 _
    have hl : l = [] := List.length_eq_zero.mp (Nat.le_zero.mp h1)
    subst hl
    cases fuel2 with
    | zero => rfl
    | succ f2 => rfl
  | succ f1 ih =>
    intro fuel2 l h1 h2
    cases fuel2 with
    | zero =>
      have hl : l = [] := List.length_eq_zero.mp (Nat.le_zero.mp h2)
      subst hl
      rfl
    | succ f2 =>
      simp only [replaceBodyF]
      cases hls : lastTagSplit (l.takeWhile (· ≠ '\n')) with
      | some p => rfl
      | none =>
        cases hd : l.dropWhile (fun c => decide (c ≠ '\n')) with
        | nil => rfl
        | cons x rs =>
          have hrs : rs.length < l.length := by
            have := length_dropWhileNe_le (fun c => decide (c ≠ '\n')) l
            rw [hd] at this
            simp only [List.length_cons] at this
            omega
          show l.takeWhile (fun c => decide (c ≠ '\n')) ++ '\n' :: replaceBodyF f1 rs
              = l.takeWhile (fun c => decide (c ≠ '\n')) ++ '\n' :: replaceBodyF f2 rs
          rw [ih f2 rs (by omega) (by omega)]

/-- Modelled from the spec: the connect-injector-frk library (an external
dependency, not in this repository) wraps the response before the chain
continues; it computes the decision predicate from the response headers and
either relays the body bytes unchanged or accumulates the body and applies
the rewrite (spec 4.4). `applied` records whether the response was routed
through the injector wrapper at all. -/
def injectorApply (applied : Bool) (hs : List HPair) (body : List Char) :
    List Char :=
  if applied &&
      shouldInject (lookupH (s2l "content-type") hs)
        (lookupH (s2l "content-encoding") hs) then
    replaceBody body
  else body

/-! ## Sub-request construction -/

/-- `AUTH_REQUEST_FORWARDED_HEADERS`. -/
def AUTH_FWD : List (List Char) := [s2l "Accept", s2l "Accept-Language"]

/-- `PROXY_REQUEST_FORWARDED_HEADERS`. -/
def PROXY_FWD : List (List Char) :=
  [s2l "Accept", s2l "Accept-Language", s2l "Origin", s2l "X-Csrftoken",
   s2l "X-Requested-With", s2l "Content-Type", s2l "Content-Length"]

/-- An incoming HTTP request as node.js hands it to the middleware: raw
request target, method, headers (node lower-cases incoming header names),
TLS state of the connection, and the `remoteUser` property (absent on a
fresh request). -/
structure Req where
  url : List Char
  method : List Char
  headers : List HPair
  encrypted : Bool
  remoteUser : Option (List Char)
deriving DecidableEq, Repr

/-- A response from the wwwhisper backend or from the downstream
application: status code, headers (node lower-cases response header names
of sub-requests), body. -/
structure HttpResponse where
  statusCode : Nat
  headers : List HPair
  body : List Char
deriving DecidableEq, Repr

/-- `copyHeaders(req, headers, headersToForward)`: forward each allow-listed
header that the request carries, under its canonical-cased name. -/
def copyHeadersF (reqHs : List HPair) (toFwd : List (List Char))
    (hs : List HPair) : List HPair :=
  toFwd.foldl
    (fun acc h =>
      match lookupH (lowName h) reqHs with
      | some v => putH acc h v
      | none => acc)
    hs

/-- The `scheme` computed by `subRequestOptions`: TLS state first, then an
`x-forwarded-proto` hint, then plain `http`. -/
def schemeOf (req : Req) : List Char :=
  if req.encrypted then s2l "https"
  else
    match lookupH (s2l "x-forwarded-proto") req.headers with
    | some v => v
    | none => s2l "http"

/-- The headers of `subRequestOptions`: allow-listed headers, wwwhisper
cookies, then the synthesized `Site-Url` (JS string concatenation turns a
missing `host` header into the text `undefined`) and `User-Agent`. -/
def subReqHeaders (req : Req) (toFwd : List (List Char)) : List HPair :=
  let hs := copyHeadersF req.headers toFwd []
  let hs := copyAuthCookiesF req.headers hs
  let hs := putH hs (s2l "Site-Url")
    (schemeOf req ++ s2l "://" ++
      ((lookupH (s2l "host") req.headers).getD (s2l "undefined")))
  putH hs (s2l "User-Agent") (s2l "node-1.1.1")

/-- `subRequestOptions(req, method, path, headersToForward)`, restricted to
the fields derived from the request; the backend endpoint fields
(`hostname`, `port`, `auth`) come from the immutable startup configuration,
a boundary the spec keeps out of the core (spec 1, 3). -/
structure SubReqOptions where
  path : List Char
  method : List Char
  headers : List HPair
deriving DecidableEq, Repr

def subReqOptions (req : Req) (method path : List Char)
    (toFwd : List (List Char)) : SubReqOptions :=
  { path := path, method := method, headers := subReqHeaders req toFwd }

/-- `authQuery(queriedPath)`. -/
def authQueryStr (queriedPath : List Char) : List Char :=
  s2l "/wwwhisper/auth/api/is-authorized/?path=" ++ queriedPath

/-! ## The per-request pipeline -/

/-- The wwwhisper backend as an oracle: the response to a sub-request, or
`none` when the connection fails (the `'error'` event). -/
structure Backend where
  respond : SubReqOptions → Option HttpResponse

/-- The reserved login sub-path prefix `/wwwhisper/auth/` (the regex
`/^\/wwwhisper\/auth\//`). -/
def loginPre : List Char := s2l "/wwwhisper/auth/"

/-- The reserved prefix `/wwwhisper/` (the regex `/^\/wwwhisper\//`). -/
def wwPre : List Char := s2l "/wwwhisper/"

/-- Parse the raw request target: urijs takes the fragment after the first
`#` and, before it, the query from the first `?`; `normalizePath()` touches
only the path part and `toString()` re-attaches query and fragment. Returns
the path and the still-attached suffix (which is empty or starts with `?`
or `#`). -/
def parseUrl (u : List Char) : List Char × List Char :=
  let f := splitFirst '#' u
  let q := splitFirst '?' f.1
  (q.1, q.2 ++ f.2)

/-- The path part of the request target. -/
def rawPathOf (req : Req) : List Char := (parseUrl req.url).1

/-- `uri.path()` after `normalizePath()`: the normalized path, query
excluded. -/
def normPathOf (req : Req) : List Char := normChars (rawPathOf req)

/-- `uri.toString()` after `normalizePath()`: normalized path with the
query string (and fragment) re-attached. -/
def newUrlOf (req : Req) : List Char := normPathOf req ++ (parseUrl req.url).2

/-- The request after `req.url = uri.toString()`. -/
def reqNormed (req : Req) : Req := { req with url := newUrlOf req }

/-- `req.remoteUser = user` when the authorization outcome carries a `User`
header. -/
def reqWithUser (r : Req) : Option (List Char) → Req
  | some u => { r with remoteUser := some u }
  | none => r

/-- The `res.setHeader('User', user)` identity echo of a grant. -/
def grantEcho (ares : HttpResponse) : List HPair :=
  match lookupH (s2l "user") ares.headers with
  | some u => setH [] (s2l "User") u
  | none => []

/-- The options of the authorization query:
`subRequestOptions(req, 'GET', authQuery(uri.path()), AUTH_REQUEST_FORWARDED_HEADERS)`. -/
def authOptsOf (req : Req) : SubReqOptions :=
  subReqOptions (reqNormed req) (s2l "GET") (authQueryStr (normPathOf req))
    AUTH_FWD

/-- The options of a proxied pass-through:
`subRequestOptions(req, req.method, req.url, PROXY_REQUEST_FORWARDED_HEADERS)`. -/
def proxyOptsOf (req : Req) : SubReqOptions :=
  subReqOptions (reqNormed req) req.method (newUrlOf req) PROXY_FWD

/-- How a request's handling ended. -/
inductive Terminal where
  | appServed | deniedRelay | proxiedRelay | authFailed | proxyFailed
deriving DecidableEq, Repr

/-- The observable outcome of one request: the authorization queries and
proxied sub-requests issued to the backend, the requests handed to the
downstream application, and the client response (status, headers
accumulated via `setHeader`, body). -/
structure Outcome where
  authQueries : List SubReqOptions
  proxyRequests : List SubReqOptions
  appRequests : List Req
  terminal : Terminal
  status : Nat
  respHeaders : List HPair
  body : List Char
deriving DecidableEq, Repr

/-- The proxy branch of `authorized`: relay the backend's status, headers
and streamed body, or report `request to wwwhisper failed` with status 500
on a connection error (`reportError`). When the chain wrapped the response
in the injector, every write goes through it. -/
def runProxy (applied : Bool) (aq : List SubReqOptions) (hs0 : List HPair)
    (be : Backend) (r : Req) : Outcome :=
  let pOpts := subReqOptions r r.method r.url PROXY_FWD
  match be.respond pOpts with
  | none =>
    let hsF := setH hs0 (s2l "Content-Type") (s2l "text/plain")
    { authQueries := aq, proxyRequests := [pOpts], appRequests := [],
      terminal := .proxyFailed, status := 500, respHeaders := hsF,
      body := injectorApply applied hsF (s2l "request to wwwhisper failed") }
  | some r2 =>
    let hsF := setAll hs0 r2.headers
    { authQueries := aq, proxyRequests := [pOpts], appRequests := [],
      terminal := .proxiedRelay, status := r2.statusCode, respHeaders := hsF,
      body := injectorApply applied hsF r2.body }

/-- The final `next()` of the chain: the downstream application handles the
request; its response flows back through the injector when wrapped. -/
def appServe (applied : Bool) (aq : List SubReqOptions) (hs0 : List HPair)
    (app : Req → HttpResponse) (r : Req) : Outcome :=
  let ares := app r
  let hsF := setAll hs0 ares.headers
  { authQueries := aq, proxyRequests := [], appRequests := [r],
    terminal := .appServed, status := ares.statusCode, respHeaders := hsF,
    body := injectorApply applied hsF ares.body }

/-- `authorized(req, res, next)`: proxy requests under `/wwwhisper/` to the
backend, pass anything else on to `next`. -/
def authorizedStep (applied : Bool) (aq : List SubReqOptions)
    (hs0 : List HPair) (be : Backend) (r : Req) (nextK : Unit → Outcome) :
    Outcome :=
  if isPref wwPre r.url = true then runProxy applied aq hs0 be r else nextK ()

/-- The outcome of `reportError(res, 'auth request failed')` on a failed
authorization query (the response is not injector-wrapped there). -/
def authFailOutcome (o : SubReqOptions) : Outcome :=
  { authQueries := [o], proxyRequests := [], appRequests := [],
    terminal := .authFailed, status := 500,
    respHeaders := setH [] (s2l "Content-Type") (s2l "text/plain"),
    body := s2l "auth request failed" }

/-- The non-200 branch of the authorization query: relay the backend's
status, headers and body verbatim; the application is not invoked. -/
def denyOutcome (o : SubReqOptions) (ares : HttpResponse) : Outcome :=
  { authQueries := [o], proxyRequests := [], appRequests := [],
    terminal := .deniedRelay, status := ares.statusCode,
    respHeaders := setAll [] ares.headers, body := ares.body }

/-- `isAuthorized(req, res, next)`, the middleware returned by `wwwhisper()`
when a backend is configured: normalize the request target; proxy
`/wwwhisper/auth/` requests directly (no authorization query); otherwise
issue the authorization query and, on 200, attach the principal identity
and run the chain `[injector, authorized, next]` (the injector is skipped
when `injectLogoutIframe` is false); on any other status relay the
backend's response; on a connection error report a 500. -/
def pipelineRun (inj : Bool) (be : Backend) (app : Req → HttpResponse)
    (req : Req) : Outcome :=
  let req1 := reqNormed req
  if isPref loginPre req1.url = true then
    authorizedStep false [] [] be req1
      (fun _ => appServe false [] [] app req1)
  else
    match be.respond (authOptsOf req) with
    | none => authFailOutcome (authOptsOf req)
    | some ares =>
      if ares.statusCode = 200 then
        let req2 := reqWithUser req1 (lookupH (s2l "user") ares.headers)
        authorizedStep inj [authOptsOf req] (grantEcho ares) be req2
          (fun _ => appServe inj [authOptsOf req] (grantEcho ares) app req2)
      else denyOutcome (authOptsOf req) ares

/-! ## The chain combinator

`chain(req, res, handlers)` drives the handlers through a shared index:
`next()` increments `idx` and invokes `handlers[idx]`, the last handler
without arguments. A handler is modelled by how many times it calls the
`next` it receives. The shared index is carried as `s` = `idx + 1` (the
JS index starts at `-1`); `nextF` returns the invoked indices in order and
the final `s`, `none` when the fuel runs out or when a `next()` call finds
the index already beyond the handler list (where the JS code would fault on
`handlers[idx]` being undefined). -/

/-- `k` sequential calls of the given `next` model. -/
def loopF (next1 : Nat → Option (List Nat × Nat)) :
    Nat → Nat → Option (List Nat × Nat)
  | 0, s => some ([], s)
  | k + 1, s =>
    (next1 s).bind fun p1 =>
      (loopF next1 k p1.2).bind fun p2 => some (p1.1 ++ p2.1, p2.2)

/-- One `next()` call of `chain` over `n` handlers whose next-call counts
are `calls`, starting from shared state `s`. -/
def nextBody (n : Nat) (calls : List Nat)
    (recur : Nat → Option (List Nat × Nat)) (s : Nat) :
    Option (List Nat × Nat) :=
  if s = n then some ([], s + 1)
  else if s = n - 1 then some ([s], s + 1)
  else if s < n then
    (loopF recur (calls.getD s 0) (s + 1)).bind fun p => some (s :: p.1, p.2)
  else none

/-- Fuelled unfolding of `nextBody`. -/
def nextF (n : Nat) (calls : List Nat) : Nat → Nat → Option (List Nat × Nat)
  | 0, _ => none
  | fuel + 1, s => nextBody n calls (nextF n calls fuel) s

/-! ## Lemmas about the path normalizer -/

theorem splitSl_noslash {s : List Char} (h : '/' ∉ s) : splitSl s = [s] := by
  induction s with
  | nil => rfl
  | cons c cs ih =>
    have hc : ¬(c = '/') := fun hc => h (by simp [hc])
    have ih2 : splitSl cs = [cs] := ih (fun hm => h (by simp [hm]))
    simp [splitSl, hc, ih2]

theorem splitSl_ne_nil (l : List Char) : splitSl l ≠ [] := by
  cases l with
  | nil => simp [splitSl]
  | cons c cs =>
    by_cases hc : c = '/'
    · simp [splitSl, hc]
    · simp only [splitSl, hc, if_false]
      rcases splitSl cs with _ | ⟨p, rest⟩ <;> simp

theorem splitSl_sep {s : List Char} (m : List Char) (h : '/' ∉ s) :
    splitSl (s ++ '/' :: m) = s :: splitSl m := by
  induction s with
  | nil => simp [splitSl]
  | cons c cs ih =>
    have hc : ¬(c = '/') := fun hc => h (by simp [hc])
    have ih2 := ih (fun hm => h (by simp [hm]))
    simp only [List.cons_append, splitSl, hc, if_false]
    rw [show splitSl (cs.append ('/' :: m)) = cs :: splitSl m from ih2]

theorem splitSl_join {r : List (List Char)} (hr : r ≠ [])
    (hn : ∀ s ∈ r, '/' ∉ s) : splitSl (joinSegs r) = r := by
  induction r with
  | nil => exact absurd rfl hr
  | cons s r' ih =>
    cases r' with
    | nil =>
      simpa [joinSegs] using splitSl_noslash (hn s (by simp))
    | cons y r'' =>
      have h1 : joinSegs (s :: y :: r'') = s ++ '/' :: joinSegs (y :: r'') :=
        rfl
      rw [h1, splitSl_sep _ (hn s (by simp))]
      rw [ih (by simp) (fun z hz => hn z (by simp [hz]))]

theorem splitSl_join_slash {r : List (List Char)} (hr : r ≠ [])
    (hn : ∀ s ∈ r, '/' ∉ s) :
    splitSl (joinSegs r ++ ['/']) = r ++ [[]] := by
  induction r with
  | nil => exact absurd rfl hr
  | cons s r' ih =>
    cases r' with
    | nil =>
      have : joinSegs [s] ++ ['/'] = s ++ '/' :: [] := rfl
      rw [this, splitSl_sep _ (hn s (by simp))]
      rfl
    | cons y r'' =>
      have h1 : joinSegs (s :: y :: r'') ++ ['/']
          = s ++ '/' :: (joinSegs (y :: r'') ++ ['/']) := by
        simp [joinSegs]
      rw [h1, splitSl_sep _ (hn s (by simp))]
      rw [ih (by simp) (fun z hz => hn z (by simp [hz]))]
      rfl

theorem splitSl_pieces_noslash {l : List Char} :
    ∀ s ∈ splitSl l, '/' ∉ s := by
  induction l with
  | nil =>
    intro s hs
    simp [splitSl] at hs
    simp [hs]
  | cons c cs ih =>
    intro s hs
    by_cases hc : c = '/'
    · simp only [splitSl, hc, if_true] at hs
      rcases List.mem_cons.mp hs with h | h
      · simp [h]
      · exact ih s h
    · simp only [splitSl, hc, if_false] at hs
      rcases he : splitSl cs with _ | ⟨p, rest⟩
      · exact absurd he (splitSl_ne_nil cs)
      · rw [he] at hs
        rcases List.mem_cons.mp hs with h | h
        · subst h
          intro hmem
          rcases List.mem_cons.mp hmem with h | h
          · exact hc h.symm
          · exact ih p (by simp [he]) h
        · exact ih s (by simp [he, h])

/-- Segments pushed by `dotRes` come from the accumulator or are non-dot
input segments. -/
theorem dotRes_pred (P : List Char → Prop)
    (hP : ∀ acc : List (List Char), (∀ s ∈ acc, P s) → ∀ s ∈ acc.tail, P s) :
    ∀ segs acc, (∀ s ∈ acc, P s) →
      (∀ s ∈ segs, s = ['.'] ∨ s = ['.', '.'] ∨ P s) →
      ∀ s ∈ dotRes acc segs, P s := by
  intro segs
  induction segs with
  | nil =>
    intro acc hacc _ s hs
    simp only [dotRes, List.mem_reverse] at hs
    exact hacc s hs
  | cons x rest ih =>
    intro acc hacc hsegs s hs
    by_cases h1 : x = ['.']
    · simp only [dotRes, h1, if_true] at hs
      exact ih acc hacc (fun z hz => hsegs z (by simp [hz])) s hs
    · by_cases h2 : x = ['.', '.']
      · simp only [dotRes, h1, if_false, h2, if_true] at hs
        exact ih acc.tail (hP acc hacc)
          (fun z hz => hsegs z (by simp [hz])) s hs
      · simp only [dotRes, h1, if_false, h2] at hs
        have hx : P x := by
          rcases hsegs x (by simp) with h | h | h
          · exact absurd h h1
          · exact absurd h h2
          · exact h
        refine ih (x :: acc) ?_ (fun z hz => hsegs z (by simp [hz])) s hs
        intro z hz
        rcases List.mem_cons.mp hz with h | h
        · exact h ▸ hx
        · exact hacc z h

/-- `dotRes` is the identity (up to the accumulator) on dot-free input. -/
theorem dotRes_clean :
    ∀ segs acc, (∀ s ∈ segs, s ≠ ['.'] ∧ s ≠ ['.', '.']) →
      dotRes acc segs = acc.reverse ++ segs := by
  intro segs
  induction segs with
  | nil => intro acc _; simp [dotRes]
  | cons x rest ih =>
    intro acc hsegs
    have hx := hsegs x (by simp)
    simp only [dotRes, hx.1, if_false, hx.2]
    rw [ih (x :: acc) (fun z hz => hsegs z (by simp [hz]))]
    simp

theorem getLastD_concat_my (xs : List (List Char)) (x d : List Char) :
    (xs ++ [x]).getLastD d = x := by
  induction xs generalizing d with
  | nil => rfl
  | cons y ys ih =>
    simp only [List.cons_append]
    rw [List.getLastD_cons]
    exact ih y

/-- The property every output segment of the normalizer satisfies. -/
def cleanSeg (s : List Char) : Prop :=
  s ≠ [] ∧ s ≠ ['.'] ∧ s ≠ ['.', '.'] ∧ '/' ∉ s

theorem normChars_segs_clean (l : List Char) :
    ∀ s ∈ dotRes [] (nonEmptySegs l), cleanSeg s := by
  refine dotRes_pred cleanSeg ?_ (nonEmptySegs l) [] (by simp) ?_
  · intro acc hacc s hs
    exact hacc s (List.mem_of_mem_tail hs)
  · intro s hs
    by_cases h1 : s = ['.']
    · exact Or.inl h1
    · by_cases h2 : s = ['.', '.']
      · exact Or.inr (Or.inl h2)
      · refine Or.inr (Or.inr ⟨?_, h1, h2, ?_⟩)
        · have := List.of_mem_filter hs
          simpa using this
        · exact splitSl_pieces_noslash s (List.mem_of_mem_filter hs)

theorem normChars_idem (l : List Char) : normChars (normChars l) = normChars l := by
  rcases hr : dotRes [] (nonEmptySegs l) with _ | ⟨z, r'⟩
  · -- no segments survive: the normalized path is the root
    simp only [normChars, hr]
    rfl
  · -- r = z :: r' survives; every segment is clean
    set r : List (List Char) := z :: r' with hrdef
    have hclean : ∀ s ∈ r, cleanSeg s := by
      rw [← hr]; exact normChars_segs_clean l
    have hne : ∀ s ∈ r, s ≠ [] := fun s hs => (hclean s hs).1
    have hnodot : ∀ s ∈ r, s ≠ ['.'] ∧ s ≠ ['.', '.'] :=
      fun s hs => ⟨(hclean s hs).2.1, (hclean s hs).2.2.1⟩
    have hnosl : ∀ s ∈ r, '/' ∉ s := fun s hs => (hclean s hs).2.2.2
    have hq : normChars l
        = '/' :: joinSegs r ++ (if endsSlashOrDot l then ['/'] else []) := by
      simp only [normChars, hr]
    by_cases hflag : endsSlashOrDot l = true
    · -- trailing slash kept
      have hq2 : normChars l = '/' :: (joinSegs r ++ ['/']) := by
        rw [hq, hflag, if_pos rfl]
        simp
      have hsplit : splitSl (normChars l) = [] :: (r ++ [[]]) := by
        rw [hq2]
        have : splitSl ('/' :: (joinSegs r ++ ['/']))
            = [] :: splitSl (joinSegs r ++ ['/']) := by simp [splitSl]
        rw [this, splitSl_join_slash (by simp [hrdef]) hnosl]
      have hsegs : nonEmptySegs (normChars l) = r := by
        unfold nonEmptySegs
        rw [hsplit]
        rw [List.filter_cons, List.filter_append]
        have he : (List.filter (fun s => decide (s ≠ [])) [([] : List Char)]) = [] := by
          simp
        rw [he]
        simp only [decide_not]
        have : List.filter (fun s => !decide (s = [])) r = r :=
          List.filter_eq_self.mpr (fun s hs => by simp [hne s hs])
        simp [this]
      have hdr : dotRes [] (nonEmptySegs (normChars l)) = r := by
        rw [hsegs, dotRes_clean r [] hnodot]
        simp
      have hflag2 : endsSlashOrDot (normChars l) = true := by
        have h1 : (splitSl (normChars l)).getLastD [] = [] := by
          rw [hsplit]
          rw [show (([] : List Char) :: (r ++ [[]]))
              = (([] : List Char) :: r) ++ [[]] by simp]
          exact getLastD_concat_my _ _ _
        simp only [endsSlashOrDot]
        rw [h1]
        decide
      rw [normChars, hdr, hflag2]
      rw [hrdef] at hq2 ⊢
      rw [hq2]
      simp
    · -- no trailing slash
      have hflagf : endsSlashOrDot l = false := by
        revert hflag; cases endsSlashOrDot l <;> simp
      have hq2 : normChars l = '/' :: joinSegs r := by
        rw [hq, hflagf]
        simp
      have hsplit : splitSl (normChars l) = [] :: r := by
        rw [hq2]
        have : splitSl ('/' :: joinSegs r) = [] :: splitSl (joinSegs r) := by
          simp [splitSl]
        rw [this, splitSl_join (by simp [hrdef]) hnosl]
      have hsegs : nonEmptySegs (normChars l) = r := by
        unfold nonEmptySegs
        rw [hsplit, List.filter_cons]
        simp only [decide_not]
        have : List.filter (fun s => !decide (s = [])) r = r :=
          List.filter_eq_self.mpr (fun s hs => by simp [hne s hs])
        simp [this]
      have hdr : dotRes [] (nonEmptySegs (normChars l)) = r := by
        rw [hsegs, dotRes_clean r [] hnodot]
        simp
      have hflag2 : endsSlashOrDot (normChars l) = false := by
        rcases List.eq_nil_or_concat r with h | ⟨r0, z0, h⟩
        · rw [hrdef] at h; simp at h
        · rw [List.concat_eq_append] at h
          have h1 : (splitSl (normChars l)).getLastD [] = z0 := by
            rw [hsplit, h]
            rw [show (([] : List Char) :: (r0 ++ [z0]))
                = (([] : List Char) :: r0) ++ [z0] by simp]
            exact getLastD_concat_my _ _ _
          have hz0 : cleanSeg z0 := hclean z0 (by simp [h])
          simp only [endsSlashOrDot]
          rw [h1]
          simp [hz0.1, hz0.2.1, hz0.2.2.1]
      rw [normChars, hdr, hflag2]
      rw [hrdef] at hq2 ⊢
      rw [hq2]
      simp

/-- The normalized path is always absolute. -/
theorem normChars_head (l : List Char) :
    (normChars l).take 1 = ['/'] := by
  rcases hr : dotRes [] (nonEmptySegs l) with _ | ⟨z, r'⟩ <;>
    simp [normChars, hr]

/-! ## Lemmas about the string scanners -/

theorem isPref_refl (s : List Char) : isPref s s = true := by
  induction s with
  | nil => rfl
  | cons c cs ih => simp [isPref, ih]

theorem isPref_append_ext {s t : List Char} (u : List Char)
    (h : isPref s t = true) : isPref s (t ++ u) = true := by
  induction s generalizing t with
  | nil => rfl
  | cons c cs ih =>
    cases t with
    | nil => simp [isPref] at h
    | cons d ds =>
      simp only [isPref, Bool.and_eq_true, decide_eq_true_eq] at h
      simp only [List.cons_append, isPref, Bool.and_eq_true,
        decide_eq_true_eq]
      exact ⟨h.1, ih h.2⟩

theorem isPref_append_self (s u : List Char) : isPref s (s ++ u) = true :=
  isPref_append_ext u (isPref_refl s)

theorem isPref_iff {s l : List Char} :
    isPref s l = true ↔ ∃ t, l = s ++ t := by
  constructor
  · intro h
    induction s generalizing l with
    | nil => exact ⟨l, rfl⟩
    | cons c cs ih =>
      cases l with
      | nil => simp [isPref] at h
      | cons d ds =>
        simp only [isPref, Bool.and_eq_true, decide_eq_true_eq] at h
        rcases ih h.2 with ⟨t, ht⟩
        exact ⟨t, by simp [h.1, ht]⟩
  · rintro ⟨t, rfl⟩
    exact isPref_append_self s t

theorem containsSub_nil (l : List Char) : containsSub [] l = true := by
  cases l <;> simp [containsSub, isPref]

theorem containsSub_append_left {s a : List Char} (b : List Char)
    (h : containsSub s a = true) : containsSub s (a ++ b) = true := by
  induction a with
  | nil =>
    have hs : s = [] := by
      cases s with
      | nil => rfl
      | cons c cs => simp [containsSub, isPref] at h
    rw [hs]
    exact containsSub_nil b
  | cons c cs ih =>
    simp only [containsSub, Bool.or_eq_true] at h
    rcases h with h | h
    · have h2 : isPref s ((c :: cs) ++ b) = true := isPref_append_ext b h
      simp only [List.cons_append] at h2
      simp only [List.cons_append, containsSub, Bool.or_eq_true]
      exact Or.inl h2
    · simp only [List.cons_append, containsSub, Bool.or_eq_true]
      exact Or.inr (ih h)

theorem containsSub_append_right {s b : List Char} (a : List Char)
    (h : containsSub s b = true) : containsSub s (a ++ b) = true := by
  induction a with
  | nil => exact h
  | cons c cs ih =>
    simp only [List.cons_append, containsSub, Bool.or_eq_true]
    exact Or.inr ih

theorem not_containsSub_left {s a b : List Char}
    (h : containsSub s (a ++ b) = false) : containsSub s a = false := by
  by_contra hc
  rw [containsSub_append_left b (by revert hc; cases containsSub s a <;> simp)]
    at h
  cases h

theorem not_containsSub_right {s a b : List Char}
    (h : containsSub s (a ++ b) = false) : containsSub s b = false := by
  by_contra hc
  rw [containsSub_append_right a (by revert hc; cases containsSub s b <;> simp)]
    at h
  cases h

theorem not_containsSub_takeWhile {s l : List Char} {p : Char → Bool}
    (h : containsSub s l = false) :
    containsSub s (l.takeWhile p) = false := by
  have := List.takeWhile_append_dropWhile (p := p) (l := l)
  rw [← this] at h
  exact not_containsSub_left h

theorem dropWhile_head {p : Char → Bool} {l : List Char} {x : Char}
    {rs : List Char} (h : l.dropWhile p = x :: rs) : p x = false := by
  induction l with
  | nil => simp at h
  | cons c cs ih =>
    by_cases hc : p c = true
    · rw [List.dropWhile_cons_of_pos hc] at h
      exact ih h
    · rw [List.dropWhile_cons_of_neg hc] at h
      cases h
      revert hc
      cases p x <;> simp

theorem splitFirst_eq (c : Char) (l : List Char) :
    (splitFirst c l).1 ++ (splitFirst c l).2 = l := by
  induction l with
  | nil => rfl
  | cons x xs ih =>
    by_cases hx : x = c <;> simp [splitFirst, hx, ih]

theorem splitFirst_fst_not (c : Char) (l : List Char) :
    c ∉ (splitFirst c l).1 := by
  induction l with
  | nil => simp [splitFirst]
  | cons x xs ih =>
    by_cases hx : x = c
    · simp [splitFirst, hx]
    · simp only [splitFirst, hx, if_false]
      intro hmem
      rcases List.mem_cons.mp hmem with h | h
      · exact hx h.symm
      · exact ih h

theorem splitFirst_snd (c : Char) (l : List Char) :
    (splitFirst c l).2 = [] ∨ ∃ r, (splitFirst c l).2 = c :: r := by
  induction l with
  | nil => exact Or.inl rfl
  | cons x xs ih =>
    by_cases hx : x = c
    · exact Or.inr ⟨xs, by simp [splitFirst, hx]⟩
    · simpa [splitFirst, hx] using ih

/-! ## Lemmas about the response injection -/

theorem tagL_cons : tagL = '<' :: '/' :: 'b' :: 'o' :: 'd' :: 'y' :: '>' :: [] :=
  rfl

theorem lastTagSplit_none {l : List Char}
    (h : containsSub tagL l = false) : lastTagSplit l = none := by
  induction l with
  | nil => rfl
  | cons c cs ih =>
    simp only [containsSub, Bool.or_eq_false_iff] at h
    simp only [lastTagSplit, ih h.2, h.1]
    rfl

theorem lastTagSplit_cons (c : Char) (cs : List Char) :
    lastTagSplit (c :: cs) = match lastTagSplit cs with
      | some (a, b) => some (c :: a, b)
      | none =>
        if isPref tagL (c :: cs) = true then
          some ([], (c :: cs).drop tagL.length)
        else none := rfl

theorem containsSub_tagTail {b : List Char}
    (hb : containsSub tagL b = false) :
    containsSub tagL (tagL.drop 1 ++ b) = false := by
  rw [tagL_cons] at hb ⊢
  simp only [List.drop, List.cons_append, List.nil_append]
  simp [containsSub, isPref, hb]

theorem lastTagSplit_last {b : List Char} (a : List Char)
    (hb : containsSub tagL b = false) :
    lastTagSplit (a ++ tagL ++ b) = some (a, b) := by
  induction a with
  | nil =>
    have h1 : lastTagSplit (tagL.drop 1 ++ b) = none :=
      lastTagSplit_none (containsSub_tagTail hb)
    have e1 : tagL ++ b = '<' :: (tagL.drop 1 ++ b) := by
      rw [tagL_cons]; rfl
    rw [List.nil_append, e1, lastTagSplit_cons, h1]
    show (if isPref tagL ('<' :: (tagL.drop 1 ++ b)) = true then
        some (([] : List Char), ('<' :: (tagL.drop 1 ++ b)).drop tagL.length)
      else none) = some ([], b)
    rw [← e1, isPref_append_self tagL b, if_pos rfl, List.drop_left]
  | cons x xs ih =>
    rw [show (x :: xs) ++ tagL ++ b = x :: (xs ++ tagL ++ b) from by simp]
    rw [lastTagSplit_cons, ih]

theorem takeWhile_append_nostop {a b : List Char} {p : Char → Bool}
    (h : ∀ c ∈ a, p c = true) :
    (a ++ b).takeWhile p = a ++ b.takeWhile p := by
  induction a with
  | nil => rfl
  | cons c cs ih =>
    have hc := h c (by simp)
    simp only [List.cons_append, List.takeWhile_cons, hc, if_true]
    rw [ih (fun d hd => h d (by simp [hd]))]

theorem dropWhile_append_nostop {a b : List Char} {p : Char → Bool}
    (h : ∀ c ∈ a, p c = true) :
    (a ++ b).dropWhile p = b.dropWhile p := by
  induction a with
  | nil => rfl
  | cons c cs ih =>
    have hc := h c (by simp)
    simp only [List.cons_append, List.dropWhile_cons, hc, if_true]
    exact ih (fun d hd => h d (by simp [hd]))

theorem newline_not_mem_tagL : '\n' ∉ tagL := by decide

theorem replaceBody_eq_tag {l a b : List Char}
    (h : lastTagSplit (l.takeWhile (· ≠ '\n')) = some (a, b)) :
    replaceBody l = a ++ scriptL ++ '\n' :: (tagL ++ (b ++ l.dropWhile (· ≠ '\n'))) := by
  cases l with
  | nil => simp [lastTagSplit] at h
  | cons c cs =>
    show replaceBodyF (cs.length + 1) (c :: cs) = _
    simp only [replaceBodyF, h]

theorem replaceBody_eq_none_nil {l : List Char}
    (h1 : lastTagSplit (l.takeWhile (· ≠ '\n')) = none)
    (h2 : l.dropWhile (· ≠ '\n') = []) :
    replaceBody l = l := by
  cases l with
  | nil => rfl
  | cons c cs =>
    show replaceBodyF (cs.length + 1) (c :: cs) = _
    simp only [replaceBodyF, h1, h2]

theorem replaceBody_eq_none_cons {l : List Char} {x : Char} {rs : List Char}
    (h1 : lastTagSplit (l.takeWhile (· ≠ '\n')) = none)
    (h2 : l.dropWhile (· ≠ '\n') = x :: rs) :
    replaceBody l = l.takeWhile (· ≠ '\n') ++ '\n' :: replaceBody rs := by
  cases l with
  | nil => simp at h2
  | cons c cs =>
    show replaceBodyF (cs.length + 1) (c :: cs) = _
    simp only [replaceBodyF, h1, h2]
    have hrs : rs.length ≤ cs.length := by
      have := length_dropWhileNe_le (fun c => decide (c ≠ '\n')) (c :: cs)
      rw [h2] at this
      simp only [List.length_cons] at this
      omega
    rw [replaceBodyF_fuel cs.length rs.length rs hrs (le_refl _)]
    rfl

/-- The first line of the body that contains `</body>` receives the
insertion, immediately before the last `</body>` of that line; every byte
before and after the inserted `<script ...></script>\n` is preserved. `pa`
is the (tag-free) part of the body before that line, `pb` the part of the
line before the last tag on it, `post` everything after that tag. -/
theorem replaceBody_insert_aux (n : Nat) :
    ∀ pa : List Char, pa.length = n →
    ∀ pb post : List Char, containsSub tagL pa = false →
    (∀ c ∈ pb, c ≠ '\n') →
    containsSub tagL (post.takeWhile (· ≠ '\n')) = false →
    replaceBody (pa ++ pb ++ tagL ++ post)
      = pa ++ pb ++ scriptL ++ '\n' :: tagL ++ post := by
  induction n using Nat.strong_induction_on with
  | _ n ih =>
  intro pa hn pb post hpa hpb hpost
  rcases hsp : splitFirst '\n' pa with ⟨u, w⟩
  have hglue : u ++ w = pa := by
    have := splitFirst_eq '\n' pa
    rw [hsp] at this
    exact this
  have hu : ∀ c ∈ u, c ≠ '\n' := by
    intro c hc
    have := splitFirst_fst_not '\n' pa
    rw [hsp] at this
    intro hceq
    exact this (hceq ▸ hc)
  rcases hw : w with _ | ⟨x, w'⟩
  · -- `pa` has no newline: the whole of `pa ++ pb` precedes the tag on the
    -- first line
    have hpa_nl : ∀ c ∈ pa, c ≠ '\n' := by
      rw [← hglue, hw]
      simpa using hu
    have hstop : ∀ c ∈ pa ++ pb ++ tagL, (fun c => decide (c ≠ '\n')) c = true := by
      intro c hc
      simp only [List.append_assoc, List.mem_append] at hc
      rcases hc with hc | hc | hc
      · simp [hpa_nl c hc]
      · simp [hpb c hc]
      · have : c ≠ '\n' := fun he => newline_not_mem_tagL (he ▸ hc)
        simp [this]
    have htw : (pa ++ pb ++ tagL ++ post).takeWhile (fun c => decide (c ≠ '\n'))
        = (pa ++ pb) ++ tagL ++ post.takeWhile (fun c => decide (c ≠ '\n')) := by
      rw [show pa ++ pb ++ tagL ++ post = (pa ++ pb ++ tagL) ++ post from by
        simp]
      rw [takeWhile_append_nostop hstop]
    have hdw : (pa ++ pb ++ tagL ++ post).dropWhile (fun c => decide (c ≠ '\n'))
        = post.dropWhile (fun c => decide (c ≠ '\n')) := by
      rw [show pa ++ pb ++ tagL ++ post = (pa ++ pb ++ tagL) ++ post from by
        simp]
      exact dropWhile_append_nostop hstop
    have htag : lastTagSplit
        ((pa ++ pb ++ tagL ++ post).takeWhile (fun c => decide (c ≠ '\n')))
        = some (pa ++ pb, post.takeWhile (fun c => decide (c ≠ '\n'))) := by
      rw [htw]
      exact lastTagSplit_last (pa ++ pb) hpost
    rw [replaceBody_eq_tag htag, hdw]
    simp only [List.append_assoc, List.cons_append,
      List.takeWhile_append_dropWhile]
  · -- `pa` = u ++ '\n' :: w': the first line of `pa` is tag-free, recurse
    have hx : x = '\n' := by
      have := splitFirst_snd '\n' pa
      rw [hsp, hw] at this
      rcases this with h | ⟨r, hr⟩
      · cases h
      · cases hr; rfl
    subst hx
    have hglue2 : pa = u ++ '\n' :: w' := by rw [← hglue, hw]
    have hustop : ∀ c ∈ u, (fun c => decide (c ≠ '\n')) c = true := by
      intro c hc; simp [hu c hc]
    have htw : (pa ++ pb ++ tagL ++ post).takeWhile (fun c => decide (c ≠ '\n'))
        = u := by
      rw [hglue2]
      rw [show (u ++ '\n' :: w') ++ pb ++ tagL ++ post
          = u ++ ('\n' :: (w' ++ pb ++ tagL ++ post)) from by simp]
      rw [takeWhile_append_nostop hustop]
      simp [List.takeWhile_cons]
    have hdw : (pa ++ pb ++ tagL ++ post).dropWhile (fun c => decide (c ≠ '\n'))
        = '\n' :: (w' ++ pb ++ tagL ++ post) := by
      rw [hglue2]
      rw [show (u ++ '\n' :: w') ++ pb ++ tagL ++ post
          = u ++ ('\n' :: (w' ++ pb ++ tagL ++ post)) from by simp]
      rw [dropWhile_append_nostop hustop]
      simp [List.dropWhile_cons]
    have hu_tagfree : containsSub tagL u = false := by
      apply not_containsSub_left (b := '\n' :: w')
      rw [← hglue2]
      exact hpa
    have hw'_tagfree : containsSub tagL w' = false := by
      have h1 : containsSub tagL ('\n' :: w') = false := by
        apply not_containsSub_right (a := u)
        rw [← hglue2]
        exact hpa
      have h2 : '\n' :: w' = ['\n'] ++ w' := rfl
      rw [h2] at h1
      exact not_containsSub_right h1
    have hrec := ih w'.length
      (by rw [← hn, hglue2]
          simp only [List.length_append, List.length_cons]
          omega)
      w' rfl pb post hw'_tagfree hpb hpost
    have h1 : lastTagSplit
        ((pa ++ pb ++ tagL ++ post).takeWhile (fun c => decide (c ≠ '\n')))
        = none := by
      rw [htw]
      exact lastTagSplit_none hu_tagfree
    rw [replaceBody_eq_none_cons h1 hdw, htw, hrec, hglue2]
    simp

theorem replaceBody_id_aux (n : Nat) :
    ∀ l : List Char, l.length = n → containsSub tagL l = false →
    replaceBody l = l := by
  induction n using Nat.strong_induction_on with
  | _ n ih =>
  intro l hn h
  have htag : lastTagSplit (l.takeWhile (· ≠ '\n')) = none :=
    lastTagSplit_none (not_containsSub_takeWhile h)
  rcases hd : l.dropWhile (fun c => decide (c ≠ '\n')) with _ | ⟨x, rs⟩
  · exact replaceBody_eq_none_nil htag hd
  · have hx : x = '\n' := by
      have := dropWhile_head hd
      revert this
      by_cases hx : x = '\n' <;> simp [hx]
    subst hx
    have hglue : l.takeWhile (fun c => decide (c ≠ '\n')) ++ '\n' :: rs = l := by
      rw [← hd]
      exact List.takeWhile_append_dropWhile _ _
    have hrs : containsSub tagL rs = false := by
      have h1 : containsSub tagL ('\n' :: rs) = false := by
        apply not_containsSub_right (a := l.takeWhile (fun c => decide (c ≠ '\n')))
        rw [hglue]
        exact h
      exact not_containsSub_right (a := ['\n']) h1
    have hlen : rs.length < n := by
      rw [← hn, ← hglue]
      simp only [List.length_append, List.length_cons]
      omega
    rw [replaceBody_eq_none_cons htag hd, ih rs.length hlen rs rfl hrs]
    exact hglue

/-- A body with no closing body tag passes through unchanged. -/
theorem replaceBody_id (l : List Char) (h : containsSub tagL l = false) :
    replaceBody l = l :=
  replaceBody_id_aux l.length l rfl h

/-- Packaged form of `replaceBody_insert_aux`. -/
theorem replaceBody_insert (pa pb post : List Char)
    (hpa : containsSub tagL pa = false)
    (hpb : ∀ c ∈ pb, c ≠ '\n')
    (hpost : containsSub tagL (post.takeWhile (· ≠ '\n')) = false) :
    replaceBody (pa ++ pb ++ tagL ++ post)
      = pa ++ pb ++ scriptL ++ '\n' :: tagL ++ post :=
  replaceBody_insert_aux pa.length pa rfl pb post hpa hpb hpost

/-! ## Lemmas about the cookie filter -/

theorem takeUntilSemi_noSemi {t : List Char} (h : ';' ∉ t) :
    takeUntilSemi t = (t, []) := by
  induction t with
  | nil => rfl
  | cons c cs ih =>
    have hc : ¬(c = ';') := fun hc => h (by simp [hc])
    have ih2 := ih (fun hm => h (by simp [hm]))
    simp [takeUntilSemi, hc, ih2]

theorem takeUntilSemi_sep {t : List Char} (m : List Char) (h : ';' ∉ t) :
    takeUntilSemi (t ++ ';' :: m) = (t ++ [';'], m) := by
  induction t with
  | nil => simp [takeUntilSemi]
  | cons c cs ih =>
    have hc : ¬(c = ';') := fun hc => h (by simp [hc])
    have ih2 := ih (fun hm => h (by simp [hm]))
    simp [takeUntilSemi, hc, ih2]

theorem isPref_of_append_long {s a b : List Char}
    (h : isPref s (a ++ b) = true) (hl : s.length ≤ a.length) :
    isPref s a = true := by
  induction a generalizing s with
  | nil =>
    have : s = [] := List.length_eq_zero.mp (Nat.le_zero.mp hl)
    subst this
    rfl
  | cons x a' ih =>
    cases s with
    | nil => rfl
    | cons y s' =>
      simp only [List.cons_append, isPref, Bool.and_eq_true,
        decide_eq_true_eq] at h ⊢
      simp only [List.length_cons] at hl
      exact ⟨h.1, ih h.2 (by omega)⟩

theorem isPref_long_split {s a b : List Char}
    (h : isPref s (a ++ b) = true) (hl : a.length < s.length) :
    isPref (s.drop a.length) b = true := by
  induction a generalizing s with
  | nil => simpa using h
  | cons x a' ih =>
    cases s with
    | nil => simp at hl
    | cons y s' =>
      simp only [List.cons_append, isPref, Bool.and_eq_true,
        decide_eq_true_eq] at h
      simp only [List.length_cons] at hl
      simpa using ih h.2 (by omega)

theorem isPref_head_mem {s : List Char} {c : Char} {X : List Char}
    (hne : s ≠ []) (h : isPref s (c :: X) = true) : c ∈ s := by
  cases s with
  | nil => exact absurd rfl hne
  | cons y s' =>
    simp only [isPref, Bool.and_eq_true, decide_eq_true_eq] at h
    simp [h.1]

theorem marker_no_semi : ';' ∉ marker := by decide

theorem marker_no_space : ' ' ∉ marker := by decide

theorem isPref_marker_nil : isPref marker [] = false := by decide

theorem noInnerMarker_drop {p : List Char} (h : noInnerMarker p = true) :
    ∀ i, 0 < i → isPref marker (p.drop i) = false := by
  intro i hi
  by_cases hl : i < p.length
  · have h2 := (List.all_eq_true.mp h) i (List.mem_range.mpr hl)
    simp only [Bool.or_eq_true, decide_eq_true_eq, Bool.not_eq_true'] at h2
    rcases h2 with h2 | h2
    · omega
    · exact h2
  · rw [List.drop_eq_nil_of_le (by omega)]
    exact isPref_marker_nil

/-- The `wwwhisper-` marker does not start at the head of `p ++ sep ++ m`
when it does not start `p`, never occurs strictly inside `p`, `p` is
semicolon-free and the separator begins with `;` or a space. -/
theorem marker_noStart_in_pair {p m : List Char}
    (hwf : p ≠ [] ∧ ';' ∉ p ∧ noInnerMarker p = true)
    (hp : isPref marker p = false) :
    ∀ i, i < p.length + 2 →
      isPref marker ((p ++ ';' :: ' ' :: m).drop i) = false := by
  intro i hi
  by_cases h1 : i < p.length
  · rw [List.drop_append_of_le_length (by omega)]
    by_cases h2 : marker.length ≤ (p.drop i).length
    · cases hq : isPref marker (p.drop i ++ ';' :: ' ' :: m) with
      | false => rfl
      | true =>
        have h3 := isPref_of_append_long hq h2
        by_cases hiz : i = 0
        · subst hiz
          rw [List.drop_zero] at h3
          rw [hp] at h3
          cases h3
        · rw [noInnerMarker_drop hwf.2.2 i (by omega)] at h3
          cases h3
    · cases hq : isPref marker (p.drop i ++ ';' :: ' ' :: m) with
      | false => rfl
      | true =>
        have h3 := isPref_long_split hq (by omega)
        have h4 : ';' ∈ marker.drop (p.drop i).length := by
          refine isPref_head_mem ?_ h3
          intro hnil
          have hlen := congrArg List.length hnil
          rw [List.length_drop] at hlen
          simp only [List.length_nil] at hlen
          have hml : marker.length = 10 := rfl
          rw [hml] at hlen h2
          omega
        exact absurd (List.drop_subset _ _ h4) marker_no_semi
  · by_cases h2 : i = p.length
    · subst h2
      rw [List.drop_left]
      cases hq : isPref marker (';' :: ' ' :: m) with
      | false => rfl
      | true =>
        have := isPref_head_mem (by decide) hq
        exact absurd this marker_no_semi
    · have h3 : i = p.length + 1 := by omega
      subst h3
      rw [show p ++ ';' :: ' ' :: m = (p ++ [';']) ++ ' ' :: m from by simp]
      rw [show p.length + 1 = (p ++ [';']).length from by simp]
      rw [List.drop_left]
      cases hq : isPref marker (' ' :: m) with
      | false => rfl
      | true =>
        have := isPref_head_mem (by decide) hq
        exact absurd this marker_no_space

theorem wwMatches_skip {a : List Char} (b : List Char)
    (h : ∀ i, i < a.length → isPref marker ((a ++ b).drop i) = false) :
    wwMatches (a ++ b) = wwMatches b := by
  induction a with
  | nil => rfl
  | cons x a' ih =>
    have h0 : isPref marker (x :: (a' ++ b)) = false := by
      have := h 0 (by simp)
      simpa using this
    rw [show (x :: a') ++ b = x :: (a' ++ b) from rfl]
    rw [wwMatches_cons_neg h0]
    refine ih ?_
    intro i hi
    have := h (i + 1) (by simp; omega)
    simpa using this

/-- Generalized positive step of the scan at a nonempty input. -/
theorem wwMatches_pos {l : List Char} (hne : l ≠ [])
    (h : isPref marker l = true) :
    wwMatches l
      = (marker ++ (takeUntilSemi (l.drop marker.length)).1) ::
          wwMatches (takeUntilSemi (l.drop marker.length)).2 := by
  cases l with
  | nil => exact absurd rfl hne
  | cons c cs => exact wwMatches_cons_pos h

theorem wwMatch_start {t : List Char} (m : List Char) (ht : ';' ∉ t) :
    wwMatches (marker ++ t ++ ';' :: m)
      = (marker ++ t ++ [';']) :: wwMatches m := by
  have hne : marker ++ t ++ ';' :: m ≠ [] := by simp [marker, s2l]
  have hp : isPref marker (marker ++ t ++ ';' :: m) = true := by
    rw [show marker ++ t ++ ';' :: m = marker ++ (t ++ ';' :: m) from by simp]
    exact isPref_append_self _ _
  rw [wwMatches_pos hne hp]
  rw [show marker ++ t ++ ';' :: m = marker ++ (t ++ ';' :: m) from by simp]
  rw [List.drop_left, takeUntilSemi_sep m ht]
  simp

theorem wwMatch_last {t : List Char} (ht : ';' ∉ t) :
    wwMatches (marker ++ t) = [marker ++ t] := by
  have hne : marker ++ t ≠ [] := by simp [marker, s2l]
  have hp : isPref marker (marker ++ t) = true := isPref_append_self _ _
  rw [wwMatches_pos hne hp, List.drop_left, takeUntilSemi_noSemi ht]
  rfl

theorem isPref_marker_space (X : List Char) :
    isPref marker (' ' :: X) = false := by
  rw [show marker = 'w' :: s2l "wwhisper-" from rfl]
  simp [isPref]

theorem isPref_marker_semi (X : List Char) :
    isPref marker (';' :: X) = false := by
  rw [show marker = 'w' :: s2l "wwhisper-" from rfl]
  simp [isPref]

theorem wwMatches_nil_of_noStart {l : List Char}
    (h : ∀ i, isPref marker (l.drop i) = false) : wwMatches l = [] := by
  induction l with
  | nil => rfl
  | cons c cs ih =>
    rw [wwMatches_cons_neg (by simpa using h 0)]
    refine ih ?_
    intro i
    simpa using h (i + 1)

/-- The tagged matches the scan finds in a well-formed `; `-joined cookie
header: every prefixed pair, each keeping the `;` that follows it (the last
pair of the header has none). -/
def tagSemis : List (List Char) → List (List Char)
  | [] => []
  | [p] => if isPref marker p = true then [p] else []
  | p :: rest =>
    if isPref marker p = true then (p ++ [';']) :: tagSemis rest
    else tagSemis rest

theorem wwMatches_icSemi :
    ∀ ps : List (List Char),
      (∀ p ∈ ps, p ≠ [] ∧ ';' ∉ p ∧ noInnerMarker p = true) →
      wwMatches (icSemi ps) = tagSemis ps := by
  intro ps
  induction ps with
  | nil => intro _; rfl
  | cons p rest ih =>
    intro hwf
    have hp := hwf p (by simp)
    cases rest with
    | nil =>
      by_cases hpref : isPref marker p = true
      · rcases isPref_iff.mp hpref with ⟨t, rfl⟩
        have ht : ';' ∉ t := fun hm => hp.2.1 (by simp [hm])
        show wwMatches (marker ++ t) = _
        rw [wwMatch_last ht]
        simp [tagSemis, hpref]
      · have hpref2 : isPref marker p = false := by
          revert hpref; cases isPref marker p <;> simp
        show wwMatches p = _
        rw [show p = p ++ [] from by simp] at hp ⊢
        rw [wwMatches_nil_of_noStart ?_]
        · simp [tagSemis, hpref2]
        · intro i
          by_cases hiz : i = 0
          · subst hiz
            simpa using hpref2
          · by_cases hil : i < p.length
            · have := noInnerMarker_drop (by simpa using hp.2.2) i (by omega)
              simpa using this
            · rw [List.drop_eq_nil_of_le (by simp; omega)]
              exact isPref_marker_nil
    | cons q rest' =>
      have hrest := ih (fun z hz => hwf z (by simp [hz]))
      by_cases hpref : isPref marker p = true
      · rcases isPref_iff.mp hpref with ⟨t, rfl⟩
        have ht : ';' ∉ t := fun hm => hp.2.1 (by simp [hm])
        show wwMatches ((marker ++ t) ++ ';' :: ' ' :: icSemi (q :: rest')) = _
        rw [wwMatch_start (' ' :: icSemi (q :: rest')) ht]
        rw [wwMatches_cons_neg (isPref_marker_space _)]
        rw [hrest]
        simp [tagSemis, hpref]
      · have hpref2 : isPref marker p = false := by
          revert hpref; cases isPref marker p <;> simp
        show wwMatches (p ++ ';' :: ' ' :: icSemi (q :: rest')) = _
        rw [show p ++ ';' :: ' ' :: icSemi (q :: rest')
            = (p ++ [';', ' ']) ++ icSemi (q :: rest') from by simp]
        rw [wwMatches_skip (icSemi (q :: rest')) ?_]
        · rw [hrest]
          simp [tagSemis, hpref2]
        · intro i hi
          rw [show (p ++ [';', ' ']) ++ icSemi (q :: rest')
              = p ++ ';' :: ' ' :: icSemi (q :: rest') from by simp]
          refine marker_noStart_in_pair hp hpref2 i ?_
          simpa using hi

theorem tagSemis_nil_iff (ps : List (List Char)) :
    tagSemis ps = [] ↔ ps.filter (fun p => isPref marker p) = [] := by
  induction ps with
  | nil => simp [tagSemis]
  | cons p rest ih =>
    cases rest with
    | nil =>
      by_cases hp : isPref marker p = true <;>
        simp [tagSemis, hp, List.filter]
    | cons q rest' =>
      by_cases hp : isPref marker p = true <;>
        simp [tagSemis, hp, List.filter, ih]

theorem splitSemi_ne_nil (l : List Char) : splitSemi l ≠ [] := by
  cases l with
  | nil => simp [splitSemi]
  | cons c cs =>
    by_cases hc : c = ';'
    · simp [splitSemi, hc]
    · simp only [splitSemi, hc, if_false]
      rcases splitSemi cs with _ | ⟨p, rest⟩ <;> simp

theorem splitSemi_sep {s : List Char} (m : List Char) (h : ';' ∉ s) :
    splitSemi (s ++ ';' :: m) = s :: splitSemi m := by
  induction s with
  | nil => simp [splitSemi]
  | cons c cs ih =>
    have hc : ¬(c = ';') := fun hc => h (by simp [hc])
    have ih2 := ih (fun hm => h (by simp [hm]))
    simp only [List.cons_append, splitSemi, hc, if_false]
    rw [show splitSemi (cs.append (';' :: m)) = cs :: splitSemi m from ih2]

theorem splitSemi_noSemi {s : List Char} (h : ';' ∉ s) :
    splitSemi s = [s] := by
  induction s with
  | nil => rfl
  | cons c cs ih =>
    have hc : ¬(c = ';') := fun hc => h (by simp [hc])
    have ih2 : splitSemi cs = [cs] := ih (fun hm => h (by simp [hm]))
    simp [splitSemi, hc, ih2]

theorem parsePairs_space (m : List Char) :
    parsePairs (' ' :: m) = parsePairs m := by
  unfold parsePairs
  have h1 : splitSemi (' ' :: m)
      = (' ' :: ((splitSemi m).headD [])) :: (splitSemi m).tail := by
    rcases he : splitSemi m with _ | ⟨s, rest⟩
    · exact absurd he (splitSemi_ne_nil m)
    · simp [splitSemi, he]
  rw [h1]
  rcases he : splitSemi m with _ | ⟨s, rest⟩
  · exact absurd he (splitSemi_ne_nil m)
  · simp only [he, List.headD_cons, List.tail_cons, List.map_cons]
    rw [show trimSp (' ' :: s) = trimSp s from by simp [trimSp, List.dropWhile]]

theorem trimSp_marker (t : List Char) : trimSp (marker ++ t) = marker ++ t := by
  rw [show marker ++ t = 'w' :: (s2l "wwhisper-" ++ t) from rfl]
  simp [trimSp, List.dropWhile]

theorem parsePairs_sep {p : List Char} (m : List Char) (h : ';' ∉ p) :
    parsePairs (p ++ ';' :: m)
      = (if trimSp p = [] then [] else [trimSp p]) ++ parsePairs m := by
  unfold parsePairs
  rw [splitSemi_sep m h]
  simp only [List.map_cons, List.filter_cons]
  by_cases ht : trimSp p = [] <;> simp [ht]

theorem parse_tagSemis :
    ∀ ps : List (List Char),
      (∀ p ∈ ps, p ≠ [] ∧ ';' ∉ p ∧ noInnerMarker p = true) →
      parsePairs (joinSp (tagSemis ps))
        = ps.filter (fun p => isPref marker p) := by
  intro ps
  induction ps with
  | nil => intro _; rfl
  | cons p rest ih =>
    intro hwf
    have hp := hwf p (by simp)
    have hrest := ih (fun z hz => hwf z (by simp [hz]))
    cases rest with
    | nil =>
      by_cases hpref : isPref marker p = true
      · rcases isPref_iff.mp hpref with ⟨t, rfl⟩
        have ht : ';' ∉ t := fun hm => hp.2.1 (by simp [hm])
        simp only [tagSemis, hpref, if_true, joinSp]
        unfold parsePairs
        rw [splitSemi_noSemi hp.2.1]
        simp only [List.map_cons, List.map_nil, List.filter]
        rw [trimSp_marker]
        have hne : marker ++ t ≠ [] := by simp [marker, s2l]
        simp [hne, hpref]
      · have hpref2 : isPref marker p = false := by
          revert hpref; cases isPref marker p <;> simp
        simp [tagSemis, hpref2, joinSp, parsePairs, splitSemi, trimSp,
          List.filter]
    | cons q rest' =>
      by_cases hpref : isPref marker p = true
      · rcases isPref_iff.mp hpref with ⟨t, rfl⟩
        have ht : ';' ∉ t := fun hm => hp.2.1 (by simp [hm])
        simp only [tagSemis, hpref, if_true]
        rcases hts : tagSemis (q :: rest') with _ | ⟨m0, T'⟩
        · have hfe : (q :: rest').filter (fun z => isPref marker z) = [] :=
            (tagSemis_nil_iff _).mp hts
          simp only [joinSp]
          rw [parsePairs_sep [] hp.2.1, trimSp_marker]
          have hne : marker ++ t ≠ [] := by simp [marker, s2l]
          rw [if_neg hne]
          simp [List.filter_cons, hpref, hfe, parsePairs, splitSemi, trimSp]
        · rw [show joinSp ((marker ++ t ++ [';']) :: m0 :: T')
              = (marker ++ t ++ [';']) ++ ' ' :: joinSp (m0 :: T') from
            rfl]
          rw [show (marker ++ t ++ [';']) ++ ' ' :: joinSp (m0 :: T')
              = (marker ++ t) ++ ';' :: (' ' :: joinSp (m0 :: T')) from by
            simp]
          rw [parsePairs_sep _ hp.2.1, trimSp_marker, parsePairs_space]
          rw [hts] at hrest
          rw [hrest]
          have hne : marker ++ t ≠ [] := by simp [marker, s2l]
          rw [if_neg hne]
          simp [List.filter_cons, hpref]
      · have hpref2 : isPref marker p = false := by
          revert hpref; cases isPref marker p <;> simp
        simp only [tagSemis]
        rw [if_neg hpref, hrest]
        simp [List.filter, hpref2]

/-! ## Lemmas about header-map plumbing -/

theorem lookup_putH_ne {hs : List HPair} {m n v : List Char} (h : m ≠ n) :
    lookupH n (putH hs m v) = lookupH n hs := by
  induction hs with
  | nil => simp [putH, lookupH, h]
  | cons x rest ih =>
    rcases x with ⟨k, w⟩
    by_cases hk : k = m
    · simp [putH, hk, lookupH, h]
    · simp only [putH, hk, if_false]
      by_cases hn : k = n <;> simp [lookupH, hn, ih]

theorem lookup_putH_self {hs : List HPair} (n v : List Char) :
    lookupH n (putH hs n v) = some v := by
  induction hs with
  | nil => simp [putH, lookupH]
  | cons x rest ih =>
    rcases x with ⟨k, w⟩
    by_cases hk : k = n
    · simp [putH, hk, lookupH]
    · simp [putH, hk, lookupH, ih]

theorem lookup_copyHeadersF {reqHs : List HPair} {tf : List (List Char)}
    {n : List Char} :
    ∀ base, (∀ h ∈ tf, h ≠ n) →
      lookupH n (copyHeadersF reqHs tf base) = lookupH n base := by
  induction tf with
  | nil => intro base _; rfl
  | cons h0 tf' ih =>
    intro base hne
    show lookupH n (copyHeadersF reqHs tf'
      (match lookupH (lowName h0) reqHs with
        | some v => putH base h0 v
        | none => base)) = lookupH n base
    rcases hl : lookupH (lowName h0) reqHs with _ | v
    · exact ih base (fun z hz => hne z (by simp [hz]))
    · rw [ih (putH base h0 v) (fun z hz => hne z (by simp [hz]))]
      exact lookup_putH_ne (hne h0 (by simp))

/-! ## Claim C4 -/

/-- C4 counterexample: a cookie header whose single pair `foo=wwwhisper-x`
has no wwwhisper-prefixed name nevertheless yields a forwarded Cookie
header (the regex matches the marker inside the VALUE), so the Cookie
header is not omitted and a fragment of a non-prefixed cookie reaches the
backend. -/
theorem claim4_cex :
    (parsePairs (s2l "foo=wwwhisper-x")).filter (fun p => isPref marker p)
      = [] ∧
    lookupH (s2l "Cookie")
      (subReqHeaders
        { url := s2l "/foo", method := s2l "GET",
          headers := [(s2l "cookie", s2l "foo=wwwhisper-x")],
          encrypted := false, remoteUser := none }
        AUTH_FWD)
      = some (s2l "wwwhisper-x") := by
  exact ⟨by decide, by decide⟩

/-- C4 (amended): for every incoming Cookie header that is the `; `-join of
nonempty, semicolon-free cookie pairs in which the marker `wwwhisper-`
occurs only at the start of a pair, the sub-request built with either
forwarding profile carries a Cookie header holding exactly the pairs whose
name bears the wwwhisper prefix (in order), and carries no Cookie header at
all when no pair does. (Unrestricted the claim fails: a pair value that
embeds the marker leaks a fragment, see the counterexample.) -/
theorem claim4_cookie_filter :
    ∀ (req : Req) (tf : List (List Char)) (ps : List (List Char)),
      (tf = AUTH_FWD ∨ tf = PROXY_FWD) →
      lookupH (s2l "cookie") req.headers = some (icSemi ps) →
      (∀ p ∈ ps, p ≠ [] ∧ ';' ∉ p ∧ noInnerMarker p = true) →
      ((ps.filter (fun p => isPref marker p) = [] →
          lookupH (s2l "Cookie") (subReqHeaders req tf) = none) ∧
       (ps.filter (fun p => isPref marker p) ≠ [] →
          ∃ v, lookupH (s2l "Cookie") (subReqHeaders req tf) = some v ∧
            parsePairs v = ps.filter (fun p => isPref marker p))) := by
  intro req tf ps htf hck hwf
  have htfne : ∀ h ∈ tf, h ≠ s2l "Cookie" := by
    rcases htf with h | h <;> subst h <;> decide
  have hbase : lookupH (s2l "Cookie") (copyHeadersF req.headers tf [])
      = none := by
    rw [lookup_copyHeadersF [] htfne]
    rfl
  have hm := wwMatches_icSemi ps hwf
  have hmain : lookupH (s2l "Cookie") (subReqHeaders req tf)
      = (match tagSemis ps with
        | [] => none
        | ms => some (joinSp ms)) := by
    unfold subReqHeaders
    rw [lookup_putH_ne (by decide), lookup_putH_ne (by decide)]
    unfold copyAuthCookiesF
    rw [hck]
    show lookupH (s2l "Cookie")
        (match wwMatches (icSemi ps) with
          | [] => copyHeadersF req.headers tf []
          | ms =>
            putH (copyHeadersF req.headers tf [])
              (s2l "Cookie") (joinSp ms))
      = _
    rw [hm]
    rcases hts : tagSemis ps with _ | ⟨m0, T'⟩
    · exact hbase
    · exact lookup_putH_self _ _
  constructor
  · intro hfil
    rw [hmain, (tagSemis_nil_iff ps).mpr hfil]
  · intro hfil
    rcases hts : tagSemis ps with _ | ⟨m0, T'⟩
    · exact absurd ((tagSemis_nil_iff ps).mp hts) hfil
    · refine ⟨joinSp (m0 :: T'), ?_, ?_⟩
      · rw [hmain, hts]
      · rw [← hts]
        exact parse_tagSemis ps hwf

/-- C4 witness: the amended theorem applied to the spec's example header
`session=123; wwwhisper-auth=xyz; settings=foo; wwwhisper-csrftoken=abc`. -/
theorem claim4_witness :
    ∃ v, lookupH (s2l "Cookie")
        (subReqHeaders
          { url := s2l "/foo", method := s2l "GET",
            headers := [(s2l "cookie",
              s2l "session=123; wwwhisper-auth=xyz; settings=foo; wwwhisper-csrftoken=abc")],
            encrypted := false, remoteUser := none }
          AUTH_FWD)
        = some v ∧
      parsePairs v
        = ([s2l "session=123", s2l "wwwhisper-auth=xyz", s2l "settings=foo",
            s2l "wwwhisper-csrftoken=abc"].filter
            (fun p => isPref marker p)) :=
  (claim4_cookie_filter
    { url := s2l "/foo", method := s2l "GET",
      headers := [(s2l "cookie",
        s2l "session=123; wwwhisper-auth=xyz; settings=foo; wwwhisper-csrftoken=abc")],
      encrypted := false, remoteUser := none }
    AUTH_FWD
    [s2l "session=123", s2l "wwwhisper-auth=xyz", s2l "settings=foo",
     s2l "wwwhisper-csrftoken=abc"]
    (Or.inl rfl) (by decide) (by decide)).2 (by decide)

/-! ## Lemmas about `setHeader` accumulation -/

theorem lookup_setH_ne {acc : List HPair} {m n v : List Char}
    (h : lowName m ≠ n) : lookupH n (setH acc m v) = lookupH n acc := by
  induction acc with
  | nil => simp [setH, lookupH, h]
  | cons x rest ih =>
    rcases x with ⟨k, w⟩
    by_cases hk : k = lowName m
    · subst hk
      simp [setH, lookupH, h]
    · simp only [setH, hk, if_false]
      by_cases hn : k = n <;> simp [lookupH, hn, ih]

theorem lookup_setH_self (acc : List HPair) (m v : List Char) :
    lookupH (lowName m) (setH acc m v) = some v := by
  induction acc with
  | nil => simp [setH, lookupH]
  | cons x rest ih =>
    rcases x with ⟨k, w⟩
    by_cases hk : k = lowName m
    · subst hk
      simp [setH, lookupH]
    · simp [setH, hk, lookupH, ih]

theorem lookup_setAll_not_has {n : List Char} :
    ∀ (hs : List HPair) (base : List HPair),
      (∀ p ∈ hs, lowName p.1 ≠ n) →
      lookupH n (setAll base hs) = lookupH n base := by
  intro hs
  induction hs with
  | nil => intro base _; rfl
  | cons x rest ih =>
    intro base hne
    show lookupH n (setAll (setH base x.1 x.2) rest) = lookupH n base
    rw [ih (setH base x.1 x.2) (fun z hz => hne z (by simp [hz]))]
    exact lookup_setH_ne (hne x (by simp))

theorem setH_append_new {base : List HPair} {n v : List Char}
    (hcanon : lowName n = n) (hnew : lookupH n base = none) :
    setH base n v = base ++ [(n, v)] := by
  induction base with
  | nil => simp [setH, hcanon]
  | cons x rest ih =>
    rcases x with ⟨k, w⟩
    simp only [lookupH] at hnew
    by_cases hk : k = n
    · rw [if_pos hk] at hnew
      cases hnew
    · rw [if_neg hk] at hnew
      simp only [setH, hcanon, hk, if_false]
      rw [ih hnew]
      simp

theorem lookup_append_none {base : List HPair} {n : List Char}
    (ex : List HPair) (h : lookupH n base = none) :
    lookupH n (base ++ ex) = lookupH n ex := by
  induction base with
  | nil => rfl
  | cons y rest ih =>
    rcases y with ⟨k, w⟩
    simp only [lookupH] at h
    by_cases hk : k = n
    · rw [if_pos hk] at h
      cases h
    · rw [if_neg hk] at h
      simp only [List.cons_append, lookupH, if_neg hk]
      exact ih h

theorem setAll_canonical :
    ∀ (hs : List HPair) (base : List HPair),
      (∀ p ∈ hs, lowName p.1 = p.1) →
      (hs.map Prod.fst).Nodup →
      (∀ p ∈ hs, lookupH p.1 base = none) →
      setAll base hs = base ++ hs := by
  intro hs
  induction hs with
  | nil => intro base _ _ _; simp [setAll]
  | cons x rest ih =>
    intro base hcanon hnodup hnew
    have hnd : x.1 ∉ rest.map Prod.fst ∧ (rest.map Prod.fst).Nodup := by
      rw [List.map_cons, List.nodup_cons] at hnodup
      exact hnodup
    show setAll (setH base x.1 x.2) rest = base ++ x :: rest
    rw [setH_append_new (hcanon x (by simp)) (hnew x (by simp))]
    rw [ih (base ++ [(x.1, x.2)]) (fun z hz => hcanon z (by simp [hz]))
      hnd.2 ?_]
    · simp
    · intro z hz
      have hzx : ¬(x.1 = z.1) := by
        intro he
        exact hnd.1 (he ▸ (List.mem_map.mpr ⟨z, hz, rfl⟩))
      rw [lookup_append_none [(x.1, x.2)] (hnew z (by simp [hz]))]
      simp [lookupH, hzx]

/-! ## Prefix bridging between the normalized path and the rebuilt target -/

theorem isPref_append_cases {p a b : List Char}
    (h : isPref p (a ++ b) = true) :
    isPref p a = true ∨ ∃ c r, b = c :: r ∧ c ∈ p := by
  induction a generalizing p with
  | nil =>
    cases p with
    | nil => exact Or.inl rfl
    | cons y p' =>
      cases b with
      | nil => simp [isPref] at h
      | cons c r =>
        simp only [List.nil_append, isPref, Bool.and_eq_true,
          decide_eq_true_eq] at h
        exact Or.inr ⟨c, r, rfl, by simp [h.1]⟩
  | cons x a' ih =>
    cases p with
    | nil => exact Or.inl rfl
    | cons y p' =>
      simp only [List.cons_append, isPref, Bool.and_eq_true,
        decide_eq_true_eq] at h
      rcases ih h.2 with h2 | ⟨c, r, rfl, hc⟩
      · exact Or.inl (by simp [isPref, h.1, h2])
      · exact Or.inr ⟨c, r, rfl, by simp [hc]⟩

theorem isPref_trans {a b l : List Char} (h1 : isPref a b = true)
    (h2 : isPref b l = true) : isPref a l = true := by
  rcases isPref_iff.mp h1 with ⟨t1, rfl⟩
  rcases isPref_iff.mp h2 with ⟨t2, rfl⟩
  rw [List.append_assoc]
  exact isPref_append_self _ _

theorem parseUrl_snd_shape (u : List Char) :
    (parseUrl u).2 = [] ∨
      ∃ c r, (parseUrl u).2 = c :: r ∧ (c = '?' ∨ c = '#') := by
  unfold parseUrl
  rcases splitFirst_snd '?' (splitFirst '#' u).1 with hq | ⟨r, hq⟩
  · rcases splitFirst_snd '#' u with hf | ⟨r2, hf⟩
    · exact Or.inl (by simp [hq, hf])
    · exact Or.inr ⟨'#', r2, by simp [hq, hf], Or.inr rfl⟩
  · exact Or.inr ⟨'?', r ++ (splitFirst '#' u).2, by simp [hq], Or.inl rfl⟩

theorem isPref_pre_newUrl {pre : List Char} (hq : '?' ∉ pre)
    (hh : '#' ∉ pre) (req : Req) :
    isPref pre (newUrlOf req) = isPref pre (normPathOf req) := by
  show isPref pre (normPathOf req ++ (parseUrl req.url).2) = _
  cases hval : isPref pre (normPathOf req) with
  | true => exact isPref_append_ext _ hval
  | false =>
    cases hval2 : isPref pre (normPathOf req ++ (parseUrl req.url).2) with
    | false => rfl
    | true =>
      rcases isPref_append_cases hval2 with h | ⟨c, r, heq, hc⟩
      · rw [hval] at h
        cases h
      · rcases parseUrl_snd_shape req.url with h2 | ⟨c2, r2, h2, hc2⟩
        · rw [h2] at heq
          cases heq
        · rw [h2] at heq
          cases heq
          rcases hc2 with h3 | h3 <;> subst h3
          · exact absurd hc hq
          · exact absurd hc hh

theorem loginPre_no_query : '?' ∉ loginPre := by decide

theorem loginPre_no_frag : '#' ∉ loginPre := by decide

theorem wwPre_no_query : '?' ∉ wwPre := by decide

theorem wwPre_no_frag : '#' ∉ wwPre := by decide

theorem wwPre_of_loginPre {l : List Char} (h : isPref loginPre l = true) :
    isPref wwPre l = true :=
  isPref_trans (by decide) h

/-! ## Branch equations of the pipeline -/

theorem reqWithUser_url (r : Req) (u : Option (List Char)) :
    (reqWithUser r u).url = r.url := by
  cases u <;> rfl

theorem pipelineRun_eq_login (inj : Bool) (be : Backend)
    (app : Req → HttpResponse) (req : Req)
    (h : isPref loginPre (newUrlOf req) = true) :
    pipelineRun inj be app req = runProxy false [] [] be (reqNormed req) := by
  have hww : isPref wwPre (newUrlOf req) = true := wwPre_of_loginPre h
  simp only [pipelineRun]
  rw [show (reqNormed req).url = newUrlOf req from rfl, h, if_pos rfl]
  unfold authorizedStep
  rw [show (reqNormed req).url = newUrlOf req from rfl, hww, if_pos rfl]

theorem pipelineRun_eq_authfail (inj : Bool) (be : Backend)
    (app : Req → HttpResponse) (req : Req)
    (h : isPref loginPre (newUrlOf req) = false)
    (hbe : be.respond (authOptsOf req) = none) :
    pipelineRun inj be app req = authFailOutcome (authOptsOf req) := by
  simp only [pipelineRun]
  rw [show (reqNormed req).url = newUrlOf req from rfl, h]
  simp only [Bool.false_eq_true, if_false]
  rw [hbe]

theorem pipelineRun_eq_deny (inj : Bool) (be : Backend)
    (app : Req → HttpResponse) (req : Req) (r : HttpResponse)
    (h : isPref loginPre (newUrlOf req) = false)
    (hbe : be.respond (authOptsOf req) = some r)
    (h200 : r.statusCode ≠ 200) :
    pipelineRun inj be app req = denyOutcome (authOptsOf req) r := by
  simp only [pipelineRun]
  rw [show (reqNormed req).url = newUrlOf req from rfl, h]
  simp only [Bool.false_eq_true, if_false]
  rw [hbe]
  simp only [if_neg h200]

theorem pipelineRun_eq_grant_app (inj : Bool) (be : Backend)
    (app : Req → HttpResponse) (req : Req) (r : HttpResponse)
    (h : isPref loginPre (newUrlOf req) = false)
    (hww : isPref wwPre (newUrlOf req) = false)
    (hbe : be.respond (authOptsOf req) = some r)
    (h200 : r.statusCode = 200) :
    pipelineRun inj be app req
      = appServe inj [authOptsOf req] (grantEcho r) app
          (reqWithUser (reqNormed req) (lookupH (s2l "user") r.headers)) := by
  simp only [pipelineRun]
  rw [show (reqNormed req).url = newUrlOf req from rfl, h]
  simp only [Bool.false_eq_true, if_false]
  rw [hbe]
  simp only [if_pos h200]
  unfold authorizedStep
  rw [reqWithUser_url]
  rw [show (reqNormed req).url = newUrlOf req from rfl, hww]
  simp only [Bool.false_eq_true, if_false]

theorem pipelineRun_eq_grant_proxy (inj : Bool) (be : Backend)
    (app : Req → HttpResponse) (req : Req) (r : HttpResponse)
    (h : isPref loginPre (newUrlOf req) = false)
    (hww : isPref wwPre (newUrlOf req) = true)
    (hbe : be.respond (authOptsOf req) = some r)
    (h200 : r.statusCode = 200) :
    pipelineRun inj be app req
      = runProxy inj [authOptsOf req] (grantEcho r) be
          (reqWithUser (reqNormed req) (lookupH (s2l "user") r.headers)) := by
  simp only [pipelineRun]
  rw [show (reqNormed req).url = newUrlOf req from rfl, h]
  simp only [Bool.false_eq_true, if_false]
  rw [hbe]
  simp only [if_pos h200]
  unfold authorizedStep
  rw [reqWithUser_url]
  rw [show (reqNormed req).url = newUrlOf req from rfl, hww, if_pos rfl]

theorem grant_proxy_opts (req : Req) (u : Option (List Char)) :
    subReqOptions (reqWithUser (reqNormed req) u)
      (reqWithUser (reqNormed req) u).method
      (reqWithUser (reqNormed req) u).url PROXY_FWD
      = proxyOptsOf req := by
  cases u <;> rfl

theorem login_proxy_opts (req : Req) :
    subReqOptions (reqNormed req) (reqNormed req).method
      (reqNormed req).url PROXY_FWD
      = proxyOptsOf req := rfl

/-! ## Helper lemmas about the injector decision and `runProxy` -/

theorem shouldInject_textPlain (ce : Option (List Char)) :
    shouldInject (some (s2l "text/plain")) ce = false := by
  cases ce with
  | none =>
    show (decide (identityEnc = identityEnc)
        && containsSub htmlMark (s2l "text/plain")) = false
    rw [show containsSub htmlMark (s2l "text/plain") = false from by decide]
    simp
  | some e =>
    show (decide ((if e = [] then identityEnc else e) = identityEnc)
        && containsSub htmlMark (s2l "text/plain")) = false
    rw [show containsSub htmlMark (s2l "text/plain") = false from by decide]
    simp

theorem injectorApply_of_false {hs : List HPair} (a : Bool) (b : List Char)
    (h : shouldInject (lookupH (s2l "content-type") hs)
      (lookupH (s2l "content-encoding") hs) = false) :
    injectorApply a hs b = b := by
  unfold injectorApply
  rw [h]
  simp

theorem injectorApply_false (hs : List HPair) (b : List Char) :
    injectorApply false hs b = b := by
  simp [injectorApply]

theorem runProxy_appRequests (a : Bool) (aq : List SubReqOptions)
    (hs0 : List HPair) (be : Backend) (r : Req) :
    (runProxy a aq hs0 be r).appRequests = [] := by
  cases hbe : be.respond (subReqOptions r r.method r.url PROXY_FWD) <;>
    simp [runProxy, hbe]

theorem runProxy_authQueries (a : Bool) (aq : List SubReqOptions)
    (hs0 : List HPair) (be : Backend) (r : Req) :
    (runProxy a aq hs0 be r).authQueries = aq := by
  cases hbe : be.respond (subReqOptions r r.method r.url PROXY_FWD) <;>
    simp [runProxy, hbe]

theorem runProxy_proxyRequests (a : Bool) (aq : List SubReqOptions)
    (hs0 : List HPair) (be : Backend) (r : Req) :
    (runProxy a aq hs0 be r).proxyRequests = [subReqOptions r r.method r.url PROXY_FWD] := by
  cases hbe : be.respond (subReqOptions r r.method r.url PROXY_FWD) <;>
    simp [runProxy, hbe]

/-! ## Claim C1 -/

/-- C1: when the authorization query for an ordinary request (normalized
path not under `/wwwhisper/auth/`) returns any status other than 200, the
downstream application is never invoked and the backend's status code,
headers and body are relayed to the client. -/
theorem claim1_denied_relay :
    ∀ (inj : Bool) (be : Backend) (app : Req → HttpResponse) (req : Req)
      (r : HttpResponse),
      isPref loginPre (normPathOf req) = false →
      be.respond (authOptsOf req) = some r →
      r.statusCode ≠ 200 →
      (∀ p ∈ r.headers, lowName p.1 = p.1) →
      (r.headers.map Prod.fst).Nodup →
      (pipelineRun inj be app req).appRequests = [] ∧
      (pipelineRun inj be app req).status = r.statusCode ∧
      (pipelineRun inj be app req).respHeaders = r.headers ∧
      (pipelineRun inj be app req).body = r.body ∧
      (pipelineRun inj be app req).terminal = Terminal.deniedRelay := by
  intro inj be app req r h1 hbe h200 hcanon hnodup
  have h1n : isPref loginPre (newUrlOf req) = false := by
    rw [isPref_pre_newUrl loginPre_no_query loginPre_no_frag req]
    exact h1
  rw [pipelineRun_eq_deny inj be app req r h1n hbe h200]
  refine ⟨rfl, rfl, ?_, rfl, rfl⟩
  show setAll [] r.headers = r.headers
  rw [setAll_canonical r.headers [] hcanon hnodup (fun p _ => rfl)]
  simp

def deny403 : HttpResponse :=
  { statusCode := 403,
    headers := [(s2l "content-type", s2l "text/plain")],
    body := s2l "Not authorized" }

def beDeny403 : Backend := ⟨fun _ => some deny403⟩

def reqFoo : Req :=
  { url := s2l "/foo/bar", method := s2l "GET", headers := [],
    encrypted := false, remoteUser := none }

def appW : Req → HttpResponse := fun _ =>
  { statusCode := 200,
    headers := [(s2l "Content-Type", s2l "text/html")],
    body := s2l "<html><body>Hello</body></html>" }

/-- C1 witness: the theorem applied to a concrete 403 denial. -/
theorem claim1_witness :
    (pipelineRun true beDeny403 appW reqFoo).appRequests = [] ∧
    (pipelineRun true beDeny403 appW reqFoo).status = deny403.statusCode ∧
    (pipelineRun true beDeny403 appW reqFoo).respHeaders = deny403.headers ∧
    (pipelineRun true beDeny403 appW reqFoo).body = deny403.body ∧
    (pipelineRun true beDeny403 appW reqFoo).terminal
      = Terminal.deniedRelay :=
  claim1_denied_relay true beDeny403 appW reqFoo deny403 (by decide)
    (by decide) (by decide) (by decide) (by decide)

/-! ## Claim C2 -/

/-- C2: for an ordinary request granted by the backend (status 200), a
`User: u` header on the authorization outcome makes the request handed to
the application carry `remoteUser = u` and puts a `User: u` header on the
client response; without a `User` header neither is set (assuming the
downstream application does not itself set a `User` header). -/
theorem claim2_user_identity :
    ∀ (inj : Bool) (be : Backend) (app : Req → HttpResponse) (req : Req)
      (r : HttpResponse),
      isPref loginPre (normPathOf req) = false →
      isPref wwPre (normPathOf req) = false →
      be.respond (authOptsOf req) = some r →
      r.statusCode = 200 →
      ((∀ u, lookupH (s2l "user") r.headers = some u →
          (∀ p ∈ (app (reqWithUser (reqNormed req) (some u))).headers,
            lowName p.1 ≠ s2l "user") →
          (pipelineRun inj be app req).appRequests.map Req.remoteUser
            = [some u] ∧
          lookupH (s2l "user") (pipelineRun inj be app req).respHeaders
            = some u) ∧
       (lookupH (s2l "user") r.headers = none →
          req.remoteUser = none →
          (∀ p ∈ (app (reqNormed req)).headers, lowName p.1 ≠ s2l "user") →
          (pipelineRun inj be app req).appRequests.map Req.remoteUser
            = [none] ∧
          lookupH (s2l "user") (pipelineRun inj be app req).respHeaders
            = none)) := by
  intro inj be app req r h1 h2 hbe h200
  have h1n : isPref loginPre (newUrlOf req) = false := by
    rw [isPref_pre_newUrl loginPre_no_query loginPre_no_frag req]
    exact h1
  have h2n : isPref wwPre (newUrlOf req) = false := by
    rw [isPref_pre_newUrl wwPre_no_query wwPre_no_frag req]
    exact h2
  rw [pipelineRun_eq_grant_app inj be app req r h1n h2n hbe h200]
  constructor
  · intro u hu happ
    rw [hu]
    constructor
    · simp [appServe, reqWithUser]
    · show lookupH (s2l "user")
        (setAll (grantEcho r)
          (app (reqWithUser (reqNormed req) (some u))).headers) = some u
      rw [lookup_setAll_not_has _ _ happ]
      unfold grantEcho
      rw [hu]
      rw [show s2l "user" = lowName (s2l "User") from by decide]
      exact lookup_setH_self [] _ u
  · intro hu hremote happ
    rw [hu]
    have hge : grantEcho r = [] := by
      unfold grantEcho
      rw [hu]
    constructor
    · simp [appServe, reqWithUser, reqNormed, hremote]
    · show lookupH (s2l "user")
        (setAll (grantEcho r)
          (app (reqWithUser (reqNormed req) none)).headers) = none
      rw [hge, show reqWithUser (reqNormed req) none = reqNormed req from rfl]
      rw [lookup_setAll_not_has _ _ happ]
      rfl

def grantU : HttpResponse :=
  { statusCode := 200,
    headers := [(s2l "user", s2l "foo@example.com")], body := [] }

def beGrantU : Backend := ⟨fun _ => some grantU⟩

def grantOpen : HttpResponse :=
  { statusCode := 200, headers := [], body := [] }

def beGrantOpen : Backend := ⟨fun _ => some grantOpen⟩

/-- C2 witness: the theorem applied to a grant carrying
`User: foo@example.com` and to a grant with no `User` header. -/
theorem claim2_witness :
    ((pipelineRun true beGrantU appW reqFoo).appRequests.map Req.remoteUser
        = [some (s2l "foo@example.com")] ∧
      lookupH (s2l "user") (pipelineRun true beGrantU appW reqFoo).respHeaders
        = some (s2l "foo@example.com")) ∧
    ((pipelineRun true beGrantOpen appW reqFoo).appRequests.map Req.remoteUser
        = [none] ∧
      lookupH (s2l "user")
        (pipelineRun true beGrantOpen appW reqFoo).respHeaders = none) :=
  ⟨(claim2_user_identity true beGrantU appW reqFoo grantU (by decide)
      (by decide) (by decide) (by decide)).1
    (s2l "foo@example.com") (by decide) (by decide),
   (claim2_user_identity true beGrantOpen appW reqFoo grantOpen (by decide)
      (by decide) (by decide) (by decide)).2
    (by decide) (by decide) (by decide)⟩

/-! ## Claim C3 -/

/-- C3: a request whose normalized path is not under the reserved login
sub-path `/wwwhisper/auth/` issues exactly one GET authorization query, at
`/wwwhisper/auth/api/is-authorized/?path=<normalized path>` with the
original query string excluded; a request whose normalized path is under
the login sub-path issues no authorization query and is proxied directly
to the backend. -/
theorem claim3_auth_query :
    ∀ (inj : Bool) (be : Backend) (app : Req → HttpResponse) (req : Req),
      (isPref loginPre (normPathOf req) = false →
        (pipelineRun inj be app req).authQueries.map
            (fun o => (o.method, o.path))
          = [(s2l "GET",
              s2l "/wwwhisper/auth/api/is-authorized/?path="
                ++ normChars (parseUrl req.url).1)]) ∧
      (isPref loginPre (normPathOf req) = true →
        (pipelineRun inj be app req).authQueries = [] ∧
        (pipelineRun inj be app req).proxyRequests.map
            (fun o => (o.method, o.path))
          = [(req.method, newUrlOf req)]) := by
  intro inj be app req
  constructor
  · intro h1
    have h1n : isPref loginPre (newUrlOf req) = false := by
      rw [isPref_pre_newUrl loginPre_no_query loginPre_no_frag req]
      exact h1
    have haq : (pipelineRun inj be app req).authQueries
        = [authOptsOf req] := by
      rcases hbe : be.respond (authOptsOf req) with _ | r
      · rw [pipelineRun_eq_authfail inj be app req h1n hbe]
        rfl
      · by_cases h200 : r.statusCode = 200
        · cases hww : isPref wwPre (newUrlOf req) with
          | true =>
            rw [pipelineRun_eq_grant_proxy inj be app req r h1n hww hbe h200]
            exact runProxy_authQueries _ _ _ _ _
          | false =>
            rw [pipelineRun_eq_grant_app inj be app req r h1n hww hbe h200]
            rfl
        · rw [pipelineRun_eq_deny inj be app req r h1n hbe h200]
          rfl
    rw [haq]
    rfl
  · intro h1
    have h1n : isPref loginPre (newUrlOf req) = true := by
      rw [isPref_pre_newUrl loginPre_no_query loginPre_no_frag req]
      exact h1
    rw [pipelineRun_eq_login inj be app req h1n]
    refine ⟨runProxy_authQueries _ _ _ _ _, ?_⟩
    rw [runProxy_proxyRequests]
    rfl

def reqLoginW : Req :=
  { url := s2l "/wwwhisper/auth/api/login", method := s2l "GET",
    headers := [], encrypted := false, remoteUser := none }

/-- C3 witness: the theorem applied to an ordinary request and to a login
sub-path request. -/
theorem claim3_witness :
    (pipelineRun true beDeny403 appW reqFoo).authQueries.map
        (fun o => (o.method, o.path))
      = [(s2l "GET",
          s2l "/wwwhisper/auth/api/is-authorized/?path="
            ++ normChars (parseUrl reqFoo.url).1)] ∧
    ((pipelineRun true beDeny403 appW reqLoginW).authQueries = [] ∧
      (pipelineRun true beDeny403 appW reqLoginW).proxyRequests.map
          (fun o => (o.method, o.path))
        = [(reqLoginW.method, newUrlOf reqLoginW)]) :=
  ⟨(claim3_auth_query true beDeny403 appW reqFoo).1 (by decide),
   (claim3_auth_query true beDeny403 appW reqLoginW).2 (by decide)⟩

/-! ## Claim C8 -/

/-- C8: a backend connection failure yields client status 500 with a
plain-text body naming the call shape: `auth request failed` when the
authorization query fails, `request to wwwhisper failed` when a proxy
pass-through fails (both on the direct login path and after a grant). -/
theorem claim8_error_bodies :
    (∀ (inj : Bool) (be : Backend) (app : Req → HttpResponse) (req : Req),
      isPref loginPre (normPathOf req) = false →
      be.respond (authOptsOf req) = none →
      (pipelineRun inj be app req).status = 500 ∧
      (pipelineRun inj be app req).body = s2l "auth request failed" ∧
      lookupH (s2l "content-type")
        (pipelineRun inj be app req).respHeaders
        = some (s2l "text/plain")) ∧
    (∀ (inj : Bool) (be : Backend) (app : Req → HttpResponse) (req : Req),
      isPref loginPre (normPathOf req) = true →
      be.respond (proxyOptsOf req) = none →
      (pipelineRun inj be app req).status = 500 ∧
      (pipelineRun inj be app req).body
        = s2l "request to wwwhisper failed") ∧
    (∀ (inj : Bool) (be : Backend) (app : Req → HttpResponse) (req : Req)
      (r : HttpResponse),
      isPref loginPre (normPathOf req) = false →
      isPref wwPre (normPathOf req) = true →
      be.respond (authOptsOf req) = some r →
      r.statusCode = 200 →
      be.respond (proxyOptsOf req) = none →
      (pipelineRun inj be app req).status = 500 ∧
      (pipelineRun inj be app req).body
        = s2l "request to wwwhisper failed") := by
  refine ⟨?_, ?_, ?_⟩
  · intro inj be app req h1 hbe
    have h1n : isPref loginPre (newUrlOf req) = false := by
      rw [isPref_pre_newUrl loginPre_no_query loginPre_no_frag req]
      exact h1
    rw [pipelineRun_eq_authfail inj be app req h1n hbe]
    exact ⟨rfl, rfl, rfl⟩
  · intro inj be app req h1 hbe
    have h1n : isPref loginPre (newUrlOf req) = true := by
      rw [isPref_pre_newUrl loginPre_no_query loginPre_no_frag req]
      exact h1
    rw [pipelineRun_eq_login inj be app req h1n]
    have hbe2 : be.respond (subReqOptions (reqNormed req)
        (reqNormed req).method (reqNormed req).url PROXY_FWD) = none := by
      rw [login_proxy_opts req]
      exact hbe
    simp only [runProxy, hbe2]
    exact ⟨trivial, injectorApply_false _ _⟩
  · intro inj be app req r h1 h2 hbe h200 hbe2
    have h1n : isPref loginPre (newUrlOf req) = false := by
      rw [isPref_pre_newUrl loginPre_no_query loginPre_no_frag req]
      exact h1
    have h2n : isPref wwPre (newUrlOf req) = true := by
      rw [isPref_pre_newUrl wwPre_no_query wwPre_no_frag req]
      exact h2
    rw [pipelineRun_eq_grant_proxy inj be app req r h1n h2n hbe h200]
    have hbe3 : be.respond (subReqOptions
        (reqWithUser (reqNormed req) (lookupH (s2l "user") r.headers))
        (reqWithUser (reqNormed req) (lookupH (s2l "user") r.headers)).method
        (reqWithUser (reqNormed req) (lookupH (s2l "user") r.headers)).url
        PROXY_FWD) = none := by
      rw [grant_proxy_opts req]
      exact hbe2
    simp only [runProxy, hbe3]
    refine ⟨trivial, ?_⟩
    refine injectorApply_of_false inj _ ?_
    have hct : lookupH (s2l "content-type")
        (setH (grantEcho r) (s2l "Content-Type") (s2l "text/plain"))
        = some (s2l "text/plain") := by
      rw [show s2l "content-type" = lowName (s2l "Content-Type") from by
        decide]
      exact lookup_setH_self _ _ _
    rw [hct]
    exact shouldInject_textPlain _

def beAuthDown : Backend := ⟨fun _ => none⟩

def beAdminDown : Backend :=
  ⟨fun o =>
    if o.path = s2l "/wwwhisper/admin" then none else some grantOpen⟩

def reqAdminW : Req :=
  { url := s2l "/wwwhisper/admin", method := s2l "GET", headers := [],
    encrypted := false, remoteUser := none }

/-- C8 witness: the theorem applied to a dead backend for all three call
shapes. -/
theorem claim8_witness :
    ((pipelineRun true beAuthDown appW reqFoo).status = 500 ∧
      (pipelineRun true beAuthDown appW reqFoo).body
        = s2l "auth request failed" ∧
      lookupH (s2l "content-type")
        (pipelineRun true beAuthDown appW reqFoo).respHeaders
        = some (s2l "text/plain")) ∧
    ((pipelineRun true beAuthDown appW reqLoginW).status = 500 ∧
      (pipelineRun true beAuthDown appW reqLoginW).body
        = s2l "request to wwwhisper failed") ∧
    ((pipelineRun true beAdminDown appW reqAdminW).status = 500 ∧
      (pipelineRun true beAdminDown appW reqAdminW).body
        = s2l "request to wwwhisper failed") :=
  ⟨claim8_error_bodies.1 true beAuthDown appW reqFoo (by decide) (by decide),
   claim8_error_bodies.2.1 true beAuthDown appW reqLoginW (by decide)
     (by decide),
   claim8_error_bodies.2.2 true beAdminDown appW reqAdminW grantOpen
     (by decide) (by decide) (by decide) (by decide) (by decide)⟩

/-! ## Claim C9 -/

def respAdmin : HttpResponse :=
  { statusCode := 200,
    headers := [(s2l "content-type", s2l "text/html")],
    body := s2l "<body>x</body>" }

def beAdminHtml : Backend :=
  ⟨fun o =>
    if o.path = s2l "/wwwhisper/admin" then some respAdmin
    else some grantOpen⟩

/-- C9 counterexample: a request for `/wwwhisper/admin` is authorized and
then proxied to the backend, but the proxied HTML response is rewritten by
the injector (the script tag is inserted), so the body relayed to the
client is NOT the backend's body verbatim. -/
theorem claim9_cex :
    beAdminHtml.respond (proxyOptsOf reqAdminW) = some respAdmin ∧
    (pipelineRun true beAdminHtml appW reqAdminW).terminal
      = Terminal.proxiedRelay ∧
    (pipelineRun true beAdminHtml appW reqAdminW).body ≠ respAdmin.body := by
  exact ⟨by decide, by decide, by decide⟩

/-- C9 (amended): a request whose normalized path is under the login
sub-path is proxied with status, headers and body relayed verbatim; a
request proxied after a grant has its status relayed verbatim, and its body
relayed verbatim when iframe injection is disabled or the injection
predicate rejects the response — with injection enabled, an HTML proxied
response is rewritten by the injector (see the counterexample). -/
theorem claim9_proxy_relay :
    (∀ (inj : Bool) (be : Backend) (app : Req → HttpResponse) (req : Req)
      (r : HttpResponse),
      isPref loginPre (normPathOf req) = true →
      be.respond (proxyOptsOf req) = some r →
      (∀ p ∈ r.headers, lowName p.1 = p.1) →
      (r.headers.map Prod.fst).Nodup →
      (pipelineRun inj be app req).terminal = Terminal.proxiedRelay ∧
      (pipelineRun inj be app req).status = r.statusCode ∧
      (pipelineRun inj be app req).respHeaders = r.headers ∧
      (pipelineRun inj be app req).body = r.body) ∧
    (∀ (inj : Bool) (be : Backend) (app : Req → HttpResponse) (req : Req)
      (ra r : HttpResponse),
      isPref loginPre (normPathOf req) = false →
      isPref wwPre (normPathOf req) = true →
      be.respond (authOptsOf req) = some ra →
      ra.statusCode = 200 →
      be.respond (proxyOptsOf req) = some r →
      (inj = false ∨
        shouldInject
          (lookupH (s2l "content-type") (setAll (grantEcho ra) r.headers))
          (lookupH (s2l "content-encoding") (setAll (grantEcho ra) r.headers))
          = false) →
      (pipelineRun inj be app req).terminal = Terminal.proxiedRelay ∧
      (pipelineRun inj be app req).status = r.statusCode ∧
      (pipelineRun inj be app req).body = r.body) := by
  constructor
  · intro inj be app req r h1 hbe hcanon hnodup
    have h1n : isPref loginPre (newUrlOf req) = true := by
      rw [isPref_pre_newUrl loginPre_no_query loginPre_no_frag req]
      exact h1
    rw [pipelineRun_eq_login inj be app req h1n]
    have hbe2 : be.respond (subReqOptions (reqNormed req)
        (reqNormed req).method (reqNormed req).url PROXY_FWD) = some r := by
      rw [login_proxy_opts req]
      exact hbe
    simp only [runProxy, hbe2]
    have hsa : setAll [] r.headers = r.headers := by
      rw [setAll_canonical r.headers [] hcanon hnodup (fun p _ => rfl)]
      simp
    refine ⟨trivial, trivial, hsa, ?_⟩
    rw [hsa] at *
    exact injectorApply_false _ _
  · intro inj be app req ra r h1 h2 hbe h200 hbe2 hni
    have h1n : isPref loginPre (newUrlOf req) = false := by
      rw [isPref_pre_newUrl loginPre_no_query loginPre_no_frag req]
      exact h1
    have h2n : isPref wwPre (newUrlOf req) = true := by
      rw [isPref_pre_newUrl wwPre_no_query wwPre_no_frag req]
      exact h2
    rw [pipelineRun_eq_grant_proxy inj be app req ra h1n h2n hbe h200]
    have hbe3 : be.respond (subReqOptions
        (reqWithUser (reqNormed req) (lookupH (s2l "user") ra.headers))
        (reqWithUser (reqNormed req) (lookupH (s2l "user") ra.headers)).method
        (reqWithUser (reqNormed req) (lookupH (s2l "user") ra.headers)).url
        PROXY_FWD) = some r := by
      rw [grant_proxy_opts req]
      exact hbe2
    simp only [runProxy, hbe3]
    refine ⟨trivial, trivial, ?_⟩
    rcases hni with hni | hni
    · rw [hni]
      exact injectorApply_false _ _
    · exact injectorApply_of_false inj _ hni

def respAdminPlain : HttpResponse :=
  { statusCode := 200,
    headers := [(s2l "content-type", s2l "text/plain")],
    body := s2l "Admin page" }

def beAdminPlain : Backend :=
  ⟨fun o =>
    if o.path = s2l "/wwwhisper/admin" then some respAdminPlain
    else some grantOpen⟩

/-- C9 witness: the amended theorem applied to a direct login-path proxy
and to an after-grant proxy of a plain-text admin page. -/
theorem claim9_witness :
    ((pipelineRun true beDeny403 appW reqLoginW).terminal
        = Terminal.proxiedRelay ∧
      (pipelineRun true beDeny403 appW reqLoginW).status
        = deny403.statusCode ∧
      (pipelineRun true beDeny403 appW reqLoginW).respHeaders
        = deny403.headers ∧
      (pipelineRun true beDeny403 appW reqLoginW).body = deny403.body) ∧
    ((pipelineRun true beAdminPlain appW reqAdminW).terminal
        = Terminal.proxiedRelay ∧
      (pipelineRun true beAdminPlain appW reqAdminW).status
        = respAdminPlain.statusCode ∧
      (pipelineRun true beAdminPlain appW reqAdminW).body
        = respAdminPlain.body) :=
  ⟨claim9_proxy_relay.1 true beDeny403 appW reqLoginW deny403 (by decide)
      (by decide) (by decide) (by decide),
   claim9_proxy_relay.2 true beAdminPlain appW reqAdminW grantOpen
      respAdminPlain (by decide) (by decide) (by decide) (by decide)
      (by decide) (Or.inr (by decide))⟩

/-! ## Claim C10 -/

theorem loopF_inv (next1 : Nat → Option (List Nat × Nat))
    (hP : ∀ s p, next1 s = some p →
      List.Pairwise (· < ·) p.1 ∧ (∀ i ∈ p.1, s ≤ i ∧ i < p.2) ∧ s < p.2) :
    ∀ (k s : Nat) (p : List Nat × Nat), loopF next1 k s = some p →
      List.Pairwise (· < ·) p.1 ∧ (∀ i ∈ p.1, s ≤ i ∧ i < p.2) ∧ s ≤ p.2 := by
  intro k
  induction k with
  | zero =>
    intro s p h
    simp only [loopF] at h
    cases h
    exact ⟨List.Pairwise.nil, by simp, le_refl s⟩
  | succ k ih =>
    intro s p h
    simp only [loopF, Option.bind_eq_some] at h
    obtain ⟨p1, h1, p2, h2, heq⟩ := h
    cases heq
    have hn := hP s p1 h1
    have hl := ih p1.2 p2 h2
    refine ⟨?_, ?_, ?_⟩
    · refine List.pairwise_append.mpr ⟨hn.1, hl.1, ?_⟩
      intro i hi j hj
      have hi2 := (hn.2.1 i hi).2
      have hj2 := (hl.2.1 j hj).1
      omega
    · intro i hi
      rcases List.mem_append.mp hi with hi | hi
      · have h3 := hn.2.1 i hi
        have h4 := hl.2.2
        exact ⟨h3.1, by omega⟩
      · have h3 := hl.2.1 i hi
        have h4 := hn.2.2
        exact ⟨by omega, h3.2⟩
    · have h3 := hn.2.2
      have h4 := hl.2.2
      omega

theorem nextF_inv (n : Nat) (calls : List Nat) :
    ∀ (fuel s : Nat) (p : List Nat × Nat),
      nextF n calls fuel s = some p →
      List.Pairwise (· < ·) p.1 ∧ (∀ i ∈ p.1, s ≤ i ∧ i < p.2) ∧ s < p.2 := by
  intro fuel
  induction fuel with
  | zero =>
    intro s p h
    simp only [nextF] at h
    cases h
  | succ f ih =>
    intro s p h
    simp only [nextF, nextBody] at h
    by_cases hsn : s = n
    · rw [if_pos hsn] at h
      cases h
      exact ⟨List.Pairwise.nil, by simp, by omega⟩
    · rw [if_neg hsn] at h
      by_cases hsn1 : s = n - 1
      · rw [if_pos hsn1] at h
        cases h
        exact ⟨by simp, by simp, by omega⟩
      · rw [if_neg hsn1] at h
        by_cases hlt : s < n
        · rw [if_pos hlt] at h
          rw [Option.bind_eq_some] at h
          obtain ⟨q, hq, heq⟩ := h
          cases heq
          have hl := loopF_inv (nextF n calls f) ih (calls.getD s 0)
            (s + 1) q hq
          refine ⟨?_, ?_, ?_⟩
          · refine List.Pairwise.cons ?_ hl.1
            intro i hi
            have := (hl.2.1 i hi).1
            omega
          · intro i hi
            rcases List.mem_cons.mp hi with hi | hi
            · have h4 := hl.2.2
              omega
            · have h3 := hl.2.1 i hi
              exact ⟨by omega, h3.2⟩
          · have := hl.2.2
            omega
        · rw [if_neg hlt] at h
          cases h

/-- C10: every completed run of the `chain` combinator invokes handlers at
strictly increasing indices, so each handler of the chain (injector,
`authorized`, the downstream continuation) runs at most once and in list
order; and in the pipeline the downstream application is invoked only on
runs that end by serving the application's response — never on a denial,
proxy relay, or error response. -/
theorem claim10_chain_order :
    (∀ (n : Nat) (calls : List Nat) (fuel s : Nat) (p : List Nat × Nat),
      nextF n calls fuel s = some p → List.Pairwise (· < ·) p.1) ∧
    (∀ (inj : Bool) (be : Backend) (app : Req → HttpResponse) (req : Req),
      (pipelineRun inj be app req).appRequests ≠ [] →
      (pipelineRun inj be app req).terminal = Terminal.appServed) := by
  constructor
  · intro n calls fuel s p h
    exact (nextF_inv n calls fuel s p h).1
  · intro inj be app req hne
    cases hlog : isPref loginPre (newUrlOf req) with
    | true =>
      rw [pipelineRun_eq_login inj be app req hlog] at hne
      rw [runProxy_appRequests] at hne
      exact absurd rfl hne
    | false =>
      rcases hbe : be.respond (authOptsOf req) with _ | r
      · rw [pipelineRun_eq_authfail inj be app req hlog hbe] at hne
        exact absurd rfl hne
      · by_cases h200 : r.statusCode = 200
        · cases hww : isPref wwPre (newUrlOf req) with
          | true =>
            rw [pipelineRun_eq_grant_proxy inj be app req r hlog hww hbe
              h200] at hne
            rw [runProxy_appRequests] at hne
            exact absurd rfl hne
          | false =>
            rw [pipelineRun_eq_grant_app inj be app req r hlog hww hbe h200]
            rfl
        · rw [pipelineRun_eq_deny inj be app req r hlog hbe h200] at hne
          exact absurd rfl hne

/-- C10 witness: a three-handler chain (injector, authorized, next, each
calling its continuation once) completes with the invocation order
`[0, 1, 2]`, and a concrete granted run serves the application. -/
theorem claim10_witness :
    List.Pairwise (· < ·) (([0, 1, 2], 3) : List Nat × Nat).1 ∧
    (pipelineRun true beGrantU appW reqFoo).terminal
      = Terminal.appServed :=
  ⟨claim10_chain_order.1 3 [1, 1] 3 0 ([0, 1, 2], 3) (by decide),
   claim10_chain_order.2 true beGrantU appW reqFoo (by decide)⟩

/-! ## Claims C5, C6, C7 -/

/-- C5 counterexample: a response with `Content-Type: text/html` and a
present but empty `Content-Encoding` header is injected although the
encoding is neither absent nor equal to `identity` (the JS `||` treats the
empty string as falsy), so the claimed if-and-only-if fails at this input. -/
theorem claim5_cex :
    shouldInject (some (s2l "text/html")) (some []) = true ∧
    some ([] : List Char) ≠ none ∧
    some ([] : List Char) ≠ some identityEnc := by
  refine ⟨by decide, by simp, by decide⟩

/-- C5 (amended): the injection decision is true if and only if the
Content-Type header is present and mentions `text/html` and the
Content-Encoding header is absent, empty, or equal to `identity`; in
particular a response whose headers carry `Content-Encoding: gzip` or
`Content-Type: text/plain` is never rewritten: its body passes through the
injector byte-identical. -/
theorem claim5_inject_decision :
    (∀ ct ce : Option (List Char),
      shouldInject ct ce = true ↔
        ((∃ t, ct = some t ∧ containsSub htmlMark t = true) ∧
         (ce = none ∨ ce = some [] ∨ ce = some identityEnc))) ∧
    (∀ (applied : Bool) (hs : List HPair) (body : List Char),
      lookupH (s2l "content-encoding") hs = some (s2l "gzip") ∨
      lookupH (s2l "content-type") hs = some (s2l "text/plain") →
      injectorApply applied hs body = body) := by
  constructor
  · intro ct ce
    cases ct with
    | none => simp [shouldInject]
    | some t =>
      cases ce with
      | none => simp [shouldInject]
      | some e =>
        by_cases he : e = []
        · subst he
          simp [shouldInject]
        · by_cases hei : e = identityEnc
          · subst hei
            simp [shouldInject, he]
          · show (decide ((if e = [] then identityEnc else e) = identityEnc)
                && containsSub htmlMark t) = true ↔ _
            rw [if_neg he]
            simp [he, hei]
  · intro applied hs body h
    have hfalse : shouldInject (lookupH (s2l "content-type") hs)
        (lookupH (s2l "content-encoding") hs) = false := by
      rcases h with h | h
      · rw [h]
        cases lookupH (s2l "content-type") hs with
        | none => rfl
        | some t =>
          show (decide ((if s2l "gzip" = [] then identityEnc else s2l "gzip")
              = identityEnc) && containsSub htmlMark t) = false
          rw [if_neg (by decide)]
          rw [show decide (s2l "gzip" = identityEnc) = false from by decide]
          simp
      · rw [h]
        cases lookupH (s2l "content-encoding") hs with
        | none =>
          show (decide (identityEnc = identityEnc)
              && containsSub htmlMark (s2l "text/plain")) = false
          rw [show containsSub htmlMark (s2l "text/plain") = false from by
            decide]
          simp
        | some e =>
          show (decide ((if e = [] then identityEnc else e) = identityEnc)
              && containsSub htmlMark (s2l "text/plain")) = false
          rw [show containsSub htmlMark (s2l "text/plain") = false from by
            decide]
          simp
    unfold injectorApply
    rw [hfalse]
    simp

/-- C5 witness: the amended theorem applied at a gzip-encoded HTML response
and at concrete header options. -/
theorem claim5_witness :
    (shouldInject (some (s2l "text/html")) none = true ↔
      ((∃ t, (some (s2l "text/html") : Option (List Char)) = some t ∧
          containsSub htmlMark t = true) ∧
       ((none : Option (List Char)) = none ∨
        (none : Option (List Char)) = some [] ∨
        (none : Option (List Char)) = some identityEnc))) ∧
    injectorApply true
      [(s2l "content-type", s2l "text/html"),
       (s2l "content-encoding", s2l "gzip")]
      (s2l "<body>x</body>") = s2l "<body>x</body>" :=
  ⟨claim5_inject_decision.1 (some (s2l "text/html")) none,
   claim5_inject_decision.2 true
     [(s2l "content-type", s2l "text/html"),
      (s2l "content-encoding", s2l "gzip")]
     (s2l "<body>x</body>") (Or.inl (by decide))⟩

/-- C6 counterexample: on a body whose last closing body tag is not on the
first tag-bearing line, the rewrite inserts before the last `</body>` of the
FIRST line containing one (the dot of `/(.*)<\/body>/` does not match a
newline), not before the last closing body tag of the body as claimed. -/
theorem claim6_cex :
    replaceBody (s2l "x</body>\ny</body>")
      = s2l "x" ++ scriptL ++ s2l "\n</body>\ny</body>" ∧
    replaceBody (s2l "x</body>\ny</body>")
      ≠ s2l "x</body>\ny" ++ scriptL ++ s2l "\n</body>" := by
  exact ⟨by decide, by decide⟩

/-- C6 (amended): when the body contains no closing body tag it passes
through unchanged (fail open); otherwise the rewrite inserts the single
script reference (followed by a newline) immediately before the last
closing body tag of the first line that contains one, preserving all bytes
before and after the insertion point. -/
theorem claim6_inject_rewrite :
    (∀ body : List Char, containsSub tagL body = false →
      replaceBody body = body) ∧
    (∀ pa pb post : List Char,
      containsSub tagL pa = false →
      (∀ c ∈ pb, c ≠ '\n') →
      containsSub tagL (post.takeWhile (· ≠ '\n')) = false →
      replaceBody (pa ++ pb ++ tagL ++ post)
        = pa ++ pb ++ scriptL ++ '\n' :: tagL ++ post) :=
  ⟨replaceBody_id, replaceBody_insert⟩

/-- C6 witness: the amended theorem applied to a tag-free body and to a
concrete decomposition (with an earlier tag on the insertion line and a
later tag on a later line). -/
theorem claim6_witness :
    replaceBody (s2l "no tag here") = s2l "no tag here" ∧
    replaceBody (s2l "a\n" ++ s2l "b</body>c" ++ tagL ++ s2l "d\n</body>")
      = s2l "a\n" ++ s2l "b</body>c" ++ scriptL ++ '\n' :: tagL
          ++ s2l "d\n</body>" :=
  ⟨claim6_inject_rewrite.1 (s2l "no tag here") (by decide),
   claim6_inject_rewrite.2 (s2l "a\n") (s2l "b</body>c") (s2l "d\n</body>")
     (by decide) (by decide) (by decide)⟩

/-- C7: path normalization is idempotent, the four example paths normalize
as stated, and the result is always an absolute path (dot-segments never
escape the root). -/
theorem claim7_normalize :
    (∀ p : String, normalizeP (normalizeP p) = normalizeP p) ∧
    normalizeP "/foo/./bar/../../bar" = "/bar" ∧
    normalizeP "/../" = "/" ∧
    normalizeP "" = "/" ∧
    normalizeP "//" = "/" ∧
    (∀ p : String, (normalizeP p).data.take 1 = ['/']) := by
  refine ⟨?_, by decide, by decide, by decide, by decide,
    fun p => normChars_head p.data⟩
  intro p
  show String.mk (normChars (normChars p.data)) = String.mk (normChars p.data)
  rw [normChars_idem]

end ConnectWwwhisper
